import Mathlib

/-!
# Verification of the parallel image-processing core

Shallow embedding of the row-band image-processing programs
(`src/MPI/image_proc_mpi.c` and `src/OMP/image_proc_omp.c`) and proofs about
them.

Modelling conventions:

* Bytes are `ℕ` (the C `unsigned char` values, always `< 256` in practice; the
  arithmetic below coincides with the C arithmetic on that domain).
* Buffers are `List ℕ` in the row-major, channel-interleaved layout of the C
  code; reads use `List.getD _ _ 0`.
* The C `double` grayscale expression is emulated exactly: every intermediate
  IEEE binary64 value occurring in `0.299*r + 0.587*g + 0.114*b` is a dyadic
  rational, represented here as its numerator at fixed scale `2^64`, with
  round-to-nearest-even at 53 significant bits after every operation.
* The `float` blur arithmetic is exact (all intermediates are multiples of
  1/16 with numerators below 2^24), so the truncated blur byte is the integer
  weighted sum divided by 16.
* The Sobel magnitude `(unsigned char)min(sqrt(sx^2+sy^2), 255)` equals
  `min 255 ⌊√(sx^2+sy^2)⌋` (the float sums are exact integers below 2^24 and
  a correctly rounded square root of such an integer truncates to the integer
  square root), modelled by a bounded search.
* Fallible memory accesses (the halo-exchange sends, which read a full row
  from a band buffer) are modelled with `Option`: `none` means the C program
  reads outside a band's buffer.
-/

/-! ## Exact binary64 emulation for the grayscale weights -/

/-- Round-half-even of the rational `a / b` (`b > 0`) to an integer. -/
def rhe (a b : ℕ) : ℕ :=
  let q := a / b
  let r := a % b
  if b < 2 * r then q + 1
  else if 2 * r < b then q
  else if q % 2 = 0 then q else q + 1

/-- Fuel-driven `⌊log₂ n⌋` (0 for `n = 0`); fuel 200 covers all values used. -/
def ilog2 : ℕ → ℕ → ℕ
  | 0, _ => 0
  | fuel + 1, n => if 2 ≤ n then ilog2 fuel (n / 2) + 1 else 0

/-- Least `t` with `den ≤ num * 2 ^ t`; for a fraction in `[2⁻⁶⁴, 1)` this is
the negated binary exponent. -/
def expSearch (num den : ℕ) : ℕ :=
  ((List.range 64).filter fun t => den ≤ num * 2 ^ t).headD 0

/-- The IEEE binary64 value of `num / den` (for fractions in `[2⁻¹², 1)`),
scaled by `2^64`: round-to-nearest-even with a 53-bit significand. -/
def dblConst (num den : ℕ) : ℕ :=
  let t := expSearch num den
  rhe (num * 2 ^ (52 + t)) den * 2 ^ (12 - t)

/-- Round a scaled dyadic value (numerator at any fixed power-of-two scale) to
53 significant bits, half to even: the rounding binary64 performs after each
arithmetic operation in range. -/
def round53 (n : ℕ) : ℕ :=
  if n < 2 ^ 53 then n
  else
    let k := ilog2 200 n - 52
    let q := n / 2 ^ k
    let r := n % 2 ^ k
    let half := 2 ^ (k - 1)
    if half < r then (q + 1) * 2 ^ k
    else if r < half then q * 2 ^ k
    else if q % 2 = 0 then q * 2 ^ k else (q + 1) * 2 ^ k

/-- `(unsigned char)(0.299 * r + 0.587 * g + 0.114 * b)` evaluated in IEEE
binary64 exactly as the C source does (left-to-right sums, one rounding per
operation, final truncation). -/
def grayByte (r g b : ℕ) : ℕ :=
  let p1 := round53 (dblConst 299 1000 * r)
  let p2 := round53 (dblConst 587 1000 * g)
  let p3 := round53 (dblConst 114 1000 * b)
  round53 (round53 (p1 + p2) + p3) / 2 ^ 64

/-- The exact mathematical `⌊0.299 R + 0.587 G + 0.114 B⌋` from the spec. -/
def graySpecByte (r g b : ℕ) : ℕ :=
  (299 * r + 587 * g + 114 * b) / 1000

/-! ## The other per-byte kernels -/

/-- `clamp(b + brightness, 0, 255)` in C `int` arithmetic
(`brightness_filter` / `brightness_filter_mpi`). -/
def brightenByte (brightness : ℤ) (b : ℕ) : ℕ :=
  let v : ℤ := (b : ℤ) + brightness
  if 255 < v then 255 else if v < 0 then 0 else v.toNat

/-- 16 × the Gaussian kernel `[[1,2,1],[2,4,2],[1,2,1]] / 16`, indexed by
`di dj ∈ {0,1,2}`.  The C float arithmetic on these dyadic weights is exact,
so the truncated blur byte is the integer weighted sum divided by 16. -/
def kernelW (di dj : ℕ) : ℕ :=
  (if di = 1 then 2 else 1) * (if dj = 1 then 2 else 1)

/-- Sobel `Gx = [[-1,0,1],[-2,0,2],[-1,0,1]]`, indexed by `di dj ∈ {0,1,2}`. -/
def gxW (di dj : ℕ) : ℤ :=
  (if dj = 0 then -1 else if dj = 2 then 1 else 0) * (if di = 1 then 2 else 1)

/-- Sobel `Gy = [[-1,-2,-1],[0,0,0],[1,2,1]]`, indexed by `di dj ∈ {0,1,2}`. -/
def gyW (di dj : ℕ) : ℤ :=
  (if di = 0 then -1 else if di = 2 then 1 else 0) * (if dj = 1 then 2 else 1)

/-- `(unsigned char)min(sqrt n, 255)` for the exact integer `n = sx²+sy²`:
equals `min 255 ⌊√n⌋`, computed by bounded search so that it evaluates by
kernel reduction. -/
def edgeMag (n : ℕ) : ℕ :=
  ((List.range 256).filter fun k => k * k ≤ n).length - 1

/-! ## Partitioner (src/MPI/image_proc_mpi.c, main, lines 86-112)

`rows_per_process = height / size`, `remainder = height % size`, and rank `r`
receives one extra row when `r < remainder`.  The byte displacements are
accumulated by the C loop `offset += sendcounts[i]`. -/

/-- `local_height` of rank `r`. -/
def localHeight (height size r : ℕ) : ℕ :=
  height / size + if r < height % size then 1 else 0

/-- `sendcounts[r] = rows * width * channels`. -/
def sendcount (height size width channels r : ℕ) : ℕ :=
  localHeight height size r * (width * channels)

/-- `displs[r]`, accumulated exactly like the C loop (`displs[i] = offset;
offset += sendcounts[i]`). -/
def displ (height size width channels : ℕ) : ℕ → ℕ
  | 0 => 0
  | r + 1 => displ height size width channels r + sendcount height size width channels r

/-- Exclusive prefix sum of the row counts, in closed form. -/
theorem sum_localHeight (height size r : ℕ) :
    (∑ i ∈ Finset.range r, localHeight height size i) =
      r * (height / size) + min r (height % size) := by
  induction r with
  | zero => simp
  | succ n ih =>
    rw [Finset.sum_range_succ, ih]
    unfold localHeight
    rcases lt_or_ge n (height % size) with h | h
    · rw [if_pos h, Nat.min_eq_left (Nat.le_of_lt h), Nat.min_eq_left h,
        Nat.succ_mul]
      omega
    · rw [if_neg (not_lt.mpr h), Nat.min_eq_right h,
        Nat.min_eq_right (h.trans (Nat.le_succ n)), Nat.succ_mul]
      omega

/-- The row counts of all `size` workers sum to `height` (for `size ≥ 1`). -/
theorem sum_localHeight_total (height size : ℕ) (hs : 1 ≤ size) :
    (∑ i ∈ Finset.range size, localHeight height size i) = height := by
  rw [sum_localHeight]
  have hlt : height % size < size := Nat.mod_lt _ hs
  have := Nat.div_add_mod height size
  omega

/-- The C byte displacements are the exclusive prefix sums of the byte
counts. -/
theorem displ_eq (height size width channels r : ℕ) :
    displ height size width channels r =
      (∑ i ∈ Finset.range r, localHeight height size i) * (width * channels) := by
  induction r with
  | zero => simp [displ]
  | succ n ih =>
    rw [displ, Finset.sum_range_succ, ih, sendcount, add_mul]

/-- C3: for every `height > 0` and `worker_count ≥ 1`, each worker's row count
is `height / worker_count` plus one extra row for the first
`height % worker_count` workers; the row counts sum exactly to `height`
(non-negativity is automatic in `ℕ`), and each worker's byte displacement is
the exclusive prefix sum of the row counts times the row size, i.e. the row
offset is the exclusive prefix sum of the row counts in worker order. -/
theorem partitioner_correct (height size width channels : ℕ)
    (hh : 0 < height) (hs : 1 ≤ size) :
    (∀ r, localHeight height size r =
        height / size + if r < height % size then 1 else 0) ∧
    (∑ r ∈ Finset.range size, localHeight height size r) = height ∧
    (∀ r, displ height size width channels r =
        (∑ i ∈ Finset.range r, localHeight height size i) * (width * channels)) := by
  refine ⟨fun r => rfl, sum_localHeight_total height size hs, fun r => displ_eq _ _ _ _ _⟩

theorem partitioner_correct_witness :
    (0 < 7 ∧ 1 ≤ 3) ∧
      ((∀ r, localHeight 7 3 r = 7 / 3 + if r < 7 % 3 then 1 else 0) ∧
       (∑ r ∈ Finset.range 3, localHeight 7 3 r) = 7 ∧
       (∀ r, displ 7 3 2 3 r =
          (∑ i ∈ Finset.range r, localHeight 7 3 i) * (2 * 3))) :=
  ⟨⟨by decide, by decide⟩, partitioner_correct 7 3 2 3 (by decide) (by decide)⟩

/-- C10: band sizes are balanced (any two row counts differ by at most one)
and non-increasing in worker order (the workers with the extra row come
first). -/
theorem partition_balanced (height size : ℕ) (hs : 1 ≤ size) :
    (∀ r1 r2, localHeight height size r1 ≤ localHeight height size r2 + 1) ∧
    (∀ r1 r2, r1 ≤ r2 → localHeight height size r2 ≤ localHeight height size r1) := by
  constructor
  · intro r1 r2
    unfold localHeight
    split <;> split <;> omega
  · intro r1 r2 h12
    unfold localHeight
    split <;> split <;> omega

theorem partition_balanced_witness :
    1 ≤ 3 ∧
      ((∀ r1 r2, localHeight 7 3 r1 ≤ localHeight 7 3 r2 + 1) ∧
       (∀ r1 r2, r1 ≤ r2 → localHeight 7 3 r2 ≤ localHeight 7 3 r1)) :=
  ⟨by decide, partition_balanced 7 3 (by decide)⟩

/-! ## Images, buffers and index decomposition -/

/-- A decoded raster image: `width × height × channels` bytes, row-major and
channel-interleaved. -/
structure Image where
  width : ℕ
  height : ℕ
  channels : ℕ
  data : List ℕ

/-- Byte offset of (row `i`, column `j`, channel `c`):
`(i * width + j) * channels + c`. -/
def pxIdx (width channels i j c : ℕ) : ℕ :=
  (i * width + j) * channels + c

/-- Read one byte of a buffer (0 for an out-of-range index; all reads proved
about are in range). -/
def byteAt (buf : List ℕ) (k : ℕ) : ℕ :=
  buf.getD k 0

/-- Row of byte offset `k`. -/
def rowOf (width channels k : ℕ) : ℕ := k / (width * channels)

/-- Column of byte offset `k`. -/
def colOf (width channels k : ℕ) : ℕ := k % (width * channels) / channels

/-- Channel of byte offset `k`. -/
def chOf (channels k : ℕ) : ℕ := k % channels

theorem pxIdx_lt {height width channels i j c : ℕ}
    (hi : i < height) (hj : j < width) (hc : c < channels) :
    pxIdx width channels i j c < height * width * channels := by
  have h1 : i * width + j < height * width := by
    calc i * width + j < i * width + width := by omega
    _ = (i + 1) * width := by ring
    _ ≤ height * width := Nat.mul_le_mul_right _ hi
  calc (i * width + j) * channels + c
      < (i * width + j) * channels + channels := by omega
    _ = (i * width + j + 1) * channels := by ring
    _ ≤ height * width * channels := Nat.mul_le_mul_right _ h1

theorem rowOf_pxIdx {width channels : ℕ} (i : ℕ) {j c : ℕ}
    (hj : j < width) (hc : c < channels) :
    rowOf width channels (pxIdx width channels i j c) = i := by
  have hwc : 0 < width * channels := Nat.mul_pos (by omega) (by omega)
  have hs : j * channels + c < width * channels := by
    calc j * channels + c < j * channels + channels := by omega
      _ = (j + 1) * channels := by ring
      _ ≤ width * channels := Nat.mul_le_mul_right _ hj
  have hk : pxIdx width channels i j c = width * channels * i + (j * channels + c) := by
    unfold pxIdx; ring
  rw [rowOf, hk, Nat.mul_add_div hwc, Nat.div_eq_of_lt hs]
  omega

theorem colOf_pxIdx {width channels : ℕ} (i : ℕ) {j c : ℕ}
    (hj : j < width) (hc : c < channels) :
    colOf width channels (pxIdx width channels i j c) = j := by
  have hch : 0 < channels := by omega
  have hs : j * channels + c < width * channels := by
    calc j * channels + c < j * channels + channels := by omega
      _ = (j + 1) * channels := by ring
      _ ≤ width * channels := Nat.mul_le_mul_right _ hj
  have hk : pxIdx width channels i j c = width * channels * i + (j * channels + c) := by
    unfold pxIdx; ring
  rw [colOf, hk, Nat.mul_add_mod, Nat.mod_eq_of_lt hs]
  have : j * channels + c = channels * j + c := by ring
  rw [this, Nat.mul_add_div hch, Nat.div_eq_of_lt hc]
  omega

theorem chOf_pxIdx {channels : ℕ} (width i j : ℕ) {c : ℕ} (hc : c < channels) :
    chOf channels (pxIdx width channels i j c) = c := by
  rw [chOf, pxIdx, Nat.mul_comm (i * width + j) channels, Nat.mul_add_mod,
    Nat.mod_eq_of_lt hc]

/-- Every byte offset is the offset of its (row, column, channel). -/
theorem pxIdx_decomp {channels : ℕ} (width k : ℕ) (hch : 0 < channels) :
    pxIdx width channels (rowOf width channels k) (colOf width channels k)
      (chOf channels k) = k := by
  unfold pxIdx rowOf colOf chOf
  have h1 : k % channels = k % (width * channels) % channels :=
    (Nat.mod_mod_of_dvd k ⟨width, by ring⟩).symm
  have h2 : k % (width * channels) / channels * channels +
      k % (width * channels) % channels = k % (width * channels) :=
    Nat.div_add_mod' _ _
  have h3 : k / (width * channels) * (width * channels) + k % (width * channels) = k :=
    Nat.div_add_mod' k (width * channels)
  calc (k / (width * channels) * width + k % (width * channels) / channels) * channels +
        k % channels
      = k / (width * channels) * (width * channels) +
        (k % (width * channels) / channels * channels +
          k % (width * channels) % channels) := by rw [← h1]; ring
    _ = k := by rw [h2, h3]

theorem rowOf_lt {height width channels k : ℕ}
    (hk : k < height * width * channels) : rowOf width channels k < height := by
  rw [rowOf]
  apply Nat.div_lt_of_lt_mul
  calc k < height * width * channels := hk
    _ = width * channels * height := by ring

theorem colOf_lt {width channels k : ℕ} (hch : 0 < channels)
    (hw : 0 < width) : colOf width channels k < width := by
  rw [colOf]
  apply Nat.div_lt_of_lt_mul
  calc k % (width * channels) < width * channels := Nat.mod_lt _ (Nat.mul_pos hw hch)
    _ = channels * width := by ring

theorem chOf_lt {channels : ℕ} (k : ℕ) (hch : 0 < channels) :
    chOf channels k < channels := Nat.mod_lt _ hch

/-- `byteAt` on a `List.ofFn` buffer evaluates the generating function. -/
theorem byteAt_ofFn {n : ℕ} (f : Fin n → ℕ) {k : ℕ} (hk : k < n) :
    byteAt (List.ofFn f) k = f ⟨k, hk⟩ := by
  rw [byteAt, List.getD_eq_getElem _ _ (by simpa using hk)]
  simp

/-! ## Shared-memory (OMP) filters: src/OMP/image_proc_omp.c

Each filter reads `input->data` and writes into a freshly `calloc`ed output
buffer of the same dimensions; a byte position the filter never stores to
keeps the calloc value 0.  The OpenMP `parallel for` splits rows across
threads with disjoint writes, so the result is the same as this sequential
per-index description for every thread count. -/

/-- `grayscale_filter` (lines 115-140): writes the gray value to channels
0..2, copies channel 3 (alpha) when present; channels ≥ 4 are never stored
to. -/
def grayscale_filter (input : Image) : Image :=
  ⟨input.width, input.height, input.channels,
    List.ofFn (n := input.height * input.width * input.channels) fun k =>
      let c := chOf input.channels k.1
      let base := k.1 - c
      let r := byteAt input.data base
      let g := if 1 < input.channels then byteAt input.data (base + 1) else r
      let b := if 2 < input.channels then byteAt input.data (base + 2) else r
      if c < 3 then grayByte r g b
      else if c = 3 then byteAt input.data k.1
      else 0⟩

/-- `brightness_filter` (lines 237-257): clamp every byte of every channel. -/
def brightness_filter (input : Image) (brightness : ℤ) : Image :=
  ⟨input.width, input.height, input.channels,
    List.ofFn (n := input.height * input.width * input.channels) fun k =>
      brightenByte brightness (byteAt input.data k.1)⟩

/-- The 3×3 weighted sum (16 × the Gaussian average) around interior pixel
(`i`, `j`, channel `c`), `i, j ≥ 1`. -/
def blurSumAt (data : List ℕ) (width channels i j c : ℕ) : ℕ :=
  ∑ di ∈ Finset.range 3, ∑ dj ∈ Finset.range 3,
    kernelW di dj * byteAt data (pxIdx width channels (i - 1 + di) (j - 1 + dj) c)

/-- `gaussian_blur_filter` (lines 142-194): the stencil runs on rows
`1 ≤ i < height-1` and columns `1 ≤ j < width-1`; afterwards the border rows
and columns are copied through from the input. -/
def gaussian_blur_filter (input : Image) : Image :=
  ⟨input.width, input.height, input.channels,
    List.ofFn (n := input.height * input.width * input.channels) fun k =>
      let i := rowOf input.width input.channels k.1
      let j := colOf input.width input.channels k.1
      let c := chOf input.channels k.1
      if i = 0 ∨ i = input.height - 1 ∨ j = 0 ∨ j = input.width - 1 then
        byteAt input.data k.1
      else blurSumAt input.data input.width input.channels i j c / 16⟩

/-- Sobel `Gx` sum over channel 0 around interior pixel (`i`, `j`),
`i, j ≥ 1`. -/
def sobelSumX (data : List ℕ) (width channels i j : ℕ) : ℤ :=
  ∑ di ∈ Finset.range 3, ∑ dj ∈ Finset.range 3,
    gxW di dj * (byteAt data (pxIdx width channels (i - 1 + di) (j - 1 + dj) 0) : ℤ)

/-- Sobel `Gy` sum over channel 0 around interior pixel (`i`, `j`). -/
def sobelSumY (data : List ℕ) (width channels i j : ℕ) : ℤ :=
  ∑ di ∈ Finset.range 3, ∑ dj ∈ Finset.range 3,
    gyW di dj * (byteAt data (pxIdx width channels (i - 1 + di) (j - 1 + dj) 0) : ℤ)

/-- Clamped, truncated Sobel magnitude at interior pixel (`i`, `j`). -/
def edgeValueAt (data : List ℕ) (width channels i j : ℕ) : ℕ :=
  edgeMag (sobelSumX data width channels i j * sobelSumX data width channels i j +
      sobelSumY data width channels i j * sobelSumY data width channels i j).toNat

/-- `sobel_edge_filter` (lines 196-235): the stencil runs on interior pixels
only and writes the magnitude to every channel; border pixels are never
stored to, so they keep the calloc value 0. -/
def sobel_edge_filter (input : Image) : Image :=
  ⟨input.width, input.height, input.channels,
    List.ofFn (n := input.height * input.width * input.channels) fun k =>
      let i := rowOf input.width input.channels k.1
      let j := colOf input.width input.channels k.1
      if i = 0 ∨ i = input.height - 1 ∨ j = 0 ∨ j = input.width - 1 then 0
      else edgeValueAt input.data input.width input.channels i j⟩

/-! ## Distributed (MPI) band filters: src/MPI/image_proc_mpi.c

Each rank owns a band of `local_height` rows.  The stencil filters copy the
band into `temp`, read neighbours from `temp` / `halo_top` / `halo_bottom`,
and write into `local_data` in place; since every read goes to the immutable
copy, the result is this per-index function of the original band (the
write-trace development at the end of this file proves that the literal
sequence of in-place stores computes the same buffer). -/

/-- `grayscale_filter_mpi` (lines 266-283): in place; channels ≥ 3 are never
stored to, so they keep their input value. -/
def grayscale_filter_mpi (band : List ℕ) (lh width channels : ℕ) : List ℕ :=
  List.ofFn (n := lh * width * channels) fun k =>
    let c := chOf channels k.1
    let base := k.1 - c
    let r := byteAt band base
    let g := if 1 < channels then byteAt band (base + 1) else r
    let b := if 2 < channels then byteAt band (base + 2) else r
    if c < 3 then grayByte r g b else byteAt band k.1

/-- `brightness_filter_mpi` (lines 410-420): clamp every byte of the band. -/
def brightness_filter_mpi (band : List ℕ) (brightness : ℤ) : List ℕ :=
  band.map (brightenByte brightness)

/-- Neighbourhood read of the MPI stencil filters: `ni < 0` reads `halo_top`,
`ni ≥ local_height` reads `halo_bottom`, otherwise the `temp` copy of the
band. -/
def bandRead (band haloTop haloBottom : List ℕ) (lh width channels : ℕ)
    (ni : ℤ) (nj c : ℕ) : ℕ :=
  if ni < 0 then byteAt haloTop (nj * channels + c)
  else if (lh : ℤ) ≤ ni then byteAt haloBottom (nj * channels + c)
  else byteAt band (pxIdx width channels ni.toNat nj c)

/-- 16 × the Gaussian average around band-local pixel (`i`, `j`, channel `c`)
using halo rows, `j ≥ 1`. -/
def blurSumMpi (band haloTop haloBottom : List ℕ) (lh width channels i j c : ℕ) : ℕ :=
  ∑ di ∈ Finset.range 3, ∑ dj ∈ Finset.range 3,
    kernelW di dj *
      bandRead band haloTop haloBottom lh width channels ((i : ℤ) + di - 1) (j - 1 + dj) c

/-- `gaussian_blur_filter_mpi` (lines 285-342): processes every local row
except the true image boundary rows (row 0 of rank 0, last row of the last
rank) and columns `1 ≤ j < width-1`; all other positions stay at their input
value (in-place filter). -/
def gaussian_blur_filter_mpi (band haloTop haloBottom : List ℕ)
    (lh width channels rank size : ℕ) : List ℕ :=
  List.ofFn (n := lh * width * channels) fun k =>
    let i := rowOf width channels k.1
    let j := colOf width channels k.1
    let c := chOf channels k.1
    if (rank = 0 ∧ i = 0) ∨ (rank = size - 1 ∧ i = lh - 1) then byteAt band k.1
    else if 1 ≤ j ∧ j + 1 < width then
      blurSumMpi band haloTop haloBottom lh width channels i j c / 16
    else byteAt band k.1

/-- Sobel `Gx` sum over channel 0 around band-local pixel (`i`, `j`) using
halo rows. -/
def sobelSumXMpi (band haloTop haloBottom : List ℕ) (lh width channels i j : ℕ) : ℤ :=
  ∑ di ∈ Finset.range 3, ∑ dj ∈ Finset.range 3,
    gxW di dj *
      (bandRead band haloTop haloBottom lh width channels ((i : ℤ) + di - 1) (j - 1 + dj) 0 : ℤ)

/-- Sobel `Gy` sum over channel 0 around band-local pixel (`i`, `j`) using
halo rows. -/
def sobelSumYMpi (band haloTop haloBottom : List ℕ) (lh width channels i j : ℕ) : ℤ :=
  ∑ di ∈ Finset.range 3, ∑ dj ∈ Finset.range 3,
    gyW di dj *
      (bandRead band haloTop haloBottom lh width channels ((i : ℤ) + di - 1) (j - 1 + dj) 0 : ℤ)

/-- Edge value at a band-local pixel. -/
def edgeValueMpi (band haloTop haloBottom : List ℕ) (lh width channels i j : ℕ) : ℕ :=
  edgeMag (sobelSumXMpi band haloTop haloBottom lh width channels i j *
        sobelSumXMpi band haloTop haloBottom lh width channels i j +
      sobelSumYMpi band haloTop haloBottom lh width channels i j *
        sobelSumYMpi band haloTop haloBottom lh width channels i j).toNat

/-- `sobel_edge_filter_mpi` (lines 344-408): same row/column policy as the
MPI blur; writes the channel-0 magnitude to every channel of an interior
pixel. -/
def sobel_edge_filter_mpi (band haloTop haloBottom : List ℕ)
    (lh width channels rank size : ℕ) : List ℕ :=
  List.ofFn (n := lh * width * channels) fun k =>
    let i := rowOf width channels k.1
    let j := colOf width channels k.1
    if (rank = 0 ∧ i = 0) ∨ (rank = size - 1 ∧ i = lh - 1) then byteAt band k.1
    else if 1 ≤ j ∧ j + 1 < width then
      edgeValueMpi band haloTop haloBottom lh width channels i j
    else byteAt band k.1

/-! ## Pointwise filter contracts (claims C4, C5) -/

theorem brightenByte_50 (b : ℕ) : brightenByte 50 b = min (b + 50) 255 := by
  simp only [brightenByte]
  split_ifs <;> omega

/-- C5: for every byte of every channel of every pixel, the brighten filter
(with its fixed delta 50) outputs `clamp(b + 50, 0, 255)` — in both the
shared-memory and the distributed kernel. -/
theorem brighten_exact :
    (∀ (input : Image) (k : ℕ), k < input.height * input.width * input.channels →
      byteAt (brightness_filter input 50).data k = min (byteAt input.data k + 50) 255) ∧
    (∀ (band : List ℕ) (k : ℕ), k < band.length →
      byteAt (brightness_filter_mpi band 50) k = min (byteAt band k + 50) 255) := by
  constructor
  · intro input k hk
    simp only [brightness_filter]
    rw [byteAt_ofFn _ hk, brightenByte_50]
  · intro band k hk
    simp only [brightness_filter_mpi]
    rw [byteAt, List.getD_eq_getElem _ _ (by simpa using hk), List.getElem_map,
      brightenByte_50, byteAt, List.getD_eq_getElem _ _ hk]

theorem brighten_exact_witness :
    byteAt (brightness_filter ⟨1, 1, 3, [10, 250, 0]⟩ 50).data 1 = 255 := by
  have h := brighten_exact.1 ⟨1, 1, 3, [10, 250, 0]⟩ 1 (by decide)
  simpa [byteAt] using h

/-- Evaluation of the OMP grayscale filter at pixel (`i`, `j`, channel `c`). -/
theorem grayscale_filter_byte (input : Image) {i j c : ℕ}
    (hi : i < input.height) (hj : j < input.width) (hc : c < input.channels) :
    byteAt (grayscale_filter input).data (pxIdx input.width input.channels i j c) =
      if c < 3 then
        grayByte (byteAt input.data (pxIdx input.width input.channels i j 0))
          (if 1 < input.channels then
            byteAt input.data (pxIdx input.width input.channels i j 1)
           else byteAt input.data (pxIdx input.width input.channels i j 0))
          (if 2 < input.channels then
            byteAt input.data (pxIdx input.width input.channels i j 2)
           else byteAt input.data (pxIdx input.width input.channels i j 0))
      else if c = 3 then byteAt input.data (pxIdx input.width input.channels i j c)
      else 0 := by
  simp only [grayscale_filter]
  rw [byteAt_ofFn _ (pxIdx_lt hi hj hc)]
  simp only [chOf_pxIdx _ _ _ hc]
  have hb0 : pxIdx input.width input.channels i j c - c =
      pxIdx input.width input.channels i j 0 := by unfold pxIdx; omega
  have hb1 : pxIdx input.width input.channels i j c - c + 1 =
      pxIdx input.width input.channels i j 1 := by unfold pxIdx; omega
  have hb2 : pxIdx input.width input.channels i j c - c + 2 =
      pxIdx input.width input.channels i j 2 := by unfold pxIdx; omega
  rw [hb1, hb2, hb0]

/-- Evaluation of the MPI grayscale band filter at band pixel
(`i`, `j`, channel `c`). -/
theorem grayscale_filter_mpi_byte (band : List ℕ) {lh w ch : ℕ} {i j c : ℕ}
    (hi : i < lh) (hj : j < w) (hc : c < ch) :
    byteAt (grayscale_filter_mpi band lh w ch) (pxIdx w ch i j c) =
      if c < 3 then
        grayByte (byteAt band (pxIdx w ch i j 0))
          (if 1 < ch then byteAt band (pxIdx w ch i j 1)
           else byteAt band (pxIdx w ch i j 0))
          (if 2 < ch then byteAt band (pxIdx w ch i j 2)
           else byteAt band (pxIdx w ch i j 0))
      else byteAt band (pxIdx w ch i j c) := by
  simp only [grayscale_filter_mpi]
  rw [byteAt_ofFn _ (pxIdx_lt hi hj hc)]
  simp only [chOf_pxIdx _ _ _ hc]
  have hb0 : pxIdx w ch i j c - c = pxIdx w ch i j 0 := by unfold pxIdx; omega
  have hb1 : pxIdx w ch i j c - c + 1 = pxIdx w ch i j 1 := by unfold pxIdx; omega
  have hb2 : pxIdx w ch i j c - c + 2 = pxIdx w ch i j 2 := by unfold pxIdx; omega
  rw [hb1, hb2, hb0]

/-- C4 counterexample: at (R,G,B) = (0,72,24) the exact value
`0.299·0 + 0.587·72 + 0.114·24 = 45` is an integer, but the C `double`
expression evaluates to `44.99999999999999…`, which the cast truncates to
44 — the grayscale output byte is not `⌊0.299R + 0.587G + 0.114B⌋`. -/
theorem grayscale_floor_counterexample :
    byteAt (grayscale_filter ⟨1, 1, 3, [0, 72, 24]⟩).data 0 = 44 ∧
      graySpecByte 0 72 24 = 45 := by
  constructor
  · decide
  · decide

/-- C4 (amended): the grayscale filter writes the IEEE-double evaluation of
`0.299R + 0.587G + 0.114B`, truncated (which equals the exact floor except
when double rounding crosses an integer), into channels 0, 1, 2; channel 3
(when present) keeps the input channel-3 byte; when channels < 3 the missing
G and/or B inputs default to R.  Holds for the shared-memory kernel (which
copies alpha explicitly) and the distributed kernel (which never stores to
channels ≥ 3 of its in-place band). -/
theorem grayscale_pixel_contract :
    (∀ (input : Image) (i j c : ℕ), i < input.height → j < input.width →
      c < input.channels →
      (c < 3 →
        byteAt (grayscale_filter input).data (pxIdx input.width input.channels i j c) =
          grayByte (byteAt input.data (pxIdx input.width input.channels i j 0))
            (if 1 < input.channels then
              byteAt input.data (pxIdx input.width input.channels i j 1)
             else byteAt input.data (pxIdx input.width input.channels i j 0))
            (if 2 < input.channels then
              byteAt input.data (pxIdx input.width input.channels i j 2)
             else byteAt input.data (pxIdx input.width input.channels i j 0))) ∧
      (c = 3 →
        byteAt (grayscale_filter input).data (pxIdx input.width input.channels i j c) =
          byteAt input.data (pxIdx input.width input.channels i j c))) ∧
    (∀ (band : List ℕ) (lh w ch i j c : ℕ), i < lh → j < w → c < ch →
      (c < 3 →
        byteAt (grayscale_filter_mpi band lh w ch) (pxIdx w ch i j c) =
          grayByte (byteAt band (pxIdx w ch i j 0))
            (if 1 < ch then byteAt band (pxIdx w ch i j 1)
             else byteAt band (pxIdx w ch i j 0))
            (if 2 < ch then byteAt band (pxIdx w ch i j 2)
             else byteAt band (pxIdx w ch i j 0))) ∧
      (3 ≤ c →
        byteAt (grayscale_filter_mpi band lh w ch) (pxIdx w ch i j c) =
          byteAt band (pxIdx w ch i j c))) := by
  constructor
  · intro input i j c hi hj hc
    rw [grayscale_filter_byte input hi hj hc]
    constructor
    · intro h3
      rw [if_pos h3]
    · intro h3
      subst h3
      rw [if_neg (by omega), if_pos rfl]
  · intro band lh w ch i j c hi hj hc
    rw [grayscale_filter_mpi_byte band hi hj hc]
    constructor
    · intro h3
      rw [if_pos h3]
    · intro h3
      rw [if_neg (by omega)]

theorem grayscale_pixel_contract_witness :
    byteAt (grayscale_filter_mpi [10, 20, 30, 40] 1 1 4) (pxIdx 1 4 0 0 0) =
      grayByte 10 20 30 := by
  have h := (grayscale_pixel_contract.2 [10, 20, 30, 40] 1 1 4 0 0 0
    (by decide) (by decide) (by decide)).1 (by decide)
  simpa [byteAt, pxIdx] using h

/-! ## Buffer equality helpers -/

theorem ext_byteAt {l1 l2 : List ℕ} (hlen : l1.length = l2.length)
    (h : ∀ k, k < l1.length → byteAt l1 k = byteAt l2 k) : l1 = l2 := by
  apply List.ext_getElem hlen
  intro k h1 h2
  have hb := h k h1
  rwa [byteAt, byteAt, List.getD_eq_getElem _ _ h1, List.getD_eq_getElem _ _ h2] at hb

theorem byteAt_replicate {n v k : ℕ} (hk : k < n) :
    byteAt (List.replicate n v) k = v := by
  rw [byteAt, List.getD_eq_getElem _ _ (by simpa using hk), List.getElem_replicate]

/-! ## Evaluation of the OMP stencil filters at a pixel -/

theorem gaussian_blur_filter_byte (input : Image) {i j c : ℕ}
    (hi : i < input.height) (hj : j < input.width) (hc : c < input.channels) :
    byteAt (gaussian_blur_filter input).data (pxIdx input.width input.channels i j c) =
      if i = 0 ∨ i = input.height - 1 ∨ j = 0 ∨ j = input.width - 1 then
        byteAt input.data (pxIdx input.width input.channels i j c)
      else blurSumAt input.data input.width input.channels i j c / 16 := by
  simp only [gaussian_blur_filter]
  rw [byteAt_ofFn _ (pxIdx_lt hi hj hc)]
  simp only [rowOf_pxIdx _ hj hc, colOf_pxIdx _ hj hc, chOf_pxIdx _ _ _ hc]

theorem sobel_edge_filter_byte (input : Image) {i j c : ℕ}
    (hi : i < input.height) (hj : j < input.width) (hc : c < input.channels) :
    byteAt (sobel_edge_filter input).data (pxIdx input.width input.channels i j c) =
      if i = 0 ∨ i = input.height - 1 ∨ j = 0 ∨ j = input.width - 1 then 0
      else edgeValueAt input.data input.width input.channels i j := by
  simp only [sobel_edge_filter]
  rw [byteAt_ofFn _ (pxIdx_lt hi hj hc)]
  simp only [rowOf_pxIdx _ hj hc, colOf_pxIdx _ hj hc]

/-! ## Uniform-field behaviour (claim C6) -/

theorem blurSumAt_replicate {w h ch i j c : ℕ} (v : ℕ)
    (hi1 : 1 ≤ i) (hi2 : i + 1 < h) (hj1 : 1 ≤ j) (hj2 : j + 1 < w) (hc : c < ch) :
    blurSumAt (List.replicate (h * w * ch) v) w ch i j c = 16 * v := by
  unfold blurSumAt
  have hcongr : ∀ di ∈ Finset.range 3, (∑ dj ∈ Finset.range 3, kernelW di dj *
      byteAt (List.replicate (h * w * ch) v) (pxIdx w ch (i - 1 + di) (j - 1 + dj) c)) =
      ∑ dj ∈ Finset.range 3, kernelW di dj * v := by
    intro di hdi
    apply Finset.sum_congr rfl
    intro dj hdj
    have hdi3 : di < 3 := Finset.mem_range.mp hdi
    have hdj3 : dj < 3 := Finset.mem_range.mp hdj
    rw [byteAt_replicate (pxIdx_lt (by omega) (by omega) hc)]
  rw [Finset.sum_congr rfl hcongr]
  simp [Finset.sum_range_succ, kernelW]
  ring

theorem sobelSumX_replicate {w h ch i j : ℕ} (v : ℕ)
    (hi1 : 1 ≤ i) (hi2 : i + 1 < h) (hj1 : 1 ≤ j) (hj2 : j + 1 < w) (hch : 0 < ch) :
    sobelSumX (List.replicate (h * w * ch) v) w ch i j = 0 := by
  unfold sobelSumX
  have hcongr : ∀ di ∈ Finset.range 3, (∑ dj ∈ Finset.range 3, gxW di dj *
      (byteAt (List.replicate (h * w * ch) v) (pxIdx w ch (i - 1 + di) (j - 1 + dj) 0) : ℤ)) =
      ∑ dj ∈ Finset.range 3, gxW di dj * (v : ℤ) := by
    intro di hdi
    apply Finset.sum_congr rfl
    intro dj hdj
    have hdi3 : di < 3 := Finset.mem_range.mp hdi
    have hdj3 : dj < 3 := Finset.mem_range.mp hdj
    rw [byteAt_replicate (pxIdx_lt (by omega) (by omega) hch)]
  rw [Finset.sum_congr rfl hcongr]
  simp [Finset.sum_range_succ, gxW]

theorem sobelSumY_replicate {w h ch i j : ℕ} (v : ℕ)
    (hi1 : 1 ≤ i) (hi2 : i + 1 < h) (hj1 : 1 ≤ j) (hj2 : j + 1 < w) (hch : 0 < ch) :
    sobelSumY (List.replicate (h * w * ch) v) w ch i j = 0 := by
  unfold sobelSumY
  have hcongr : ∀ di ∈ Finset.range 3, (∑ dj ∈ Finset.range 3, gyW di dj *
      (byteAt (List.replicate (h * w * ch) v) (pxIdx w ch (i - 1 + di) (j - 1 + dj) 0) : ℤ)) =
      ∑ dj ∈ Finset.range 3, gyW di dj * (v : ℤ) := by
    intro di hdi
    apply Finset.sum_congr rfl
    intro dj hdj
    have hdi3 : di < 3 := Finset.mem_range.mp hdi
    have hdj3 : dj < 3 := Finset.mem_range.mp hdj
    rw [byteAt_replicate (pxIdx_lt (by omega) (by omega) hch)]
  rw [Finset.sum_congr rfl hcongr]
  simp [Finset.sum_range_succ, gyW]
  ring

/-- C6: an image filled entirely with byte value 100 is unchanged by the blur
filter (the normalized kernel sums to 1, and `100·16/16 = 100` exactly), and
the edge filter produces edge value 0 at every interior pixel (all Sobel
gradients cancel on a constant field). -/
theorem uniform_fixed_point (w h ch : ℕ) :
    (gaussian_blur_filter ⟨w, h, ch, List.replicate (h * w * ch) 100⟩).data =
      List.replicate (h * w * ch) 100 ∧
    (∀ i j c, 1 ≤ i → i + 1 < h → 1 ≤ j → j + 1 < w → c < ch →
      byteAt (sobel_edge_filter ⟨w, h, ch, List.replicate (h * w * ch) 100⟩).data
        (pxIdx w ch i j c) = 0) := by
  constructor
  · apply ext_byteAt
    · simp [gaussian_blur_filter]
    · intro k hk0
      have hk : k < h * w * ch := by
        simpa [gaussian_blur_filter] using hk0
      have hch : 0 < ch := by
        rcases Nat.eq_zero_or_pos ch with h0 | h1
        · rw [h0, Nat.mul_zero] at hk; omega
        · exact h1
      have hw : 0 < w := by
        rcases Nat.eq_zero_or_pos w with h0 | h1
        · rw [h0] at hk; simp at hk
        · exact h1
      have hdec := pxIdx_decomp w k hch
      rw [byteAt_replicate hk, ← hdec,
        gaussian_blur_filter_byte _ (rowOf_lt hk) (colOf_lt hch hw) (chOf_lt k hch)]
      set i := rowOf w ch k with hidef
      set j := colOf w ch k with hjdef
      set c := chOf ch k with hcdef
      by_cases hb : i = 0 ∨ i = h - 1 ∨ j = 0 ∨ j = w - 1
      · rw [if_pos hb, hdec, byteAt_replicate hk]
      · rw [if_neg hb]
        push_neg at hb
        have hi : i < h := rowOf_lt hk
        have hj : j < w := colOf_lt hch hw
        rw [blurSumAt_replicate 100 (by omega) (by omega) (by omega) (by omega)
          (chOf_lt k hch)]
  · intro i j c hi1 hi2 hj1 hj2 hc
    have hch : 0 < ch := by omega
    have hb := @sobel_edge_filter_byte (⟨w, h, ch, List.replicate (h * w * ch) 100⟩ : Image)
      i j c (by dsimp only; omega) (by dsimp only; omega) hc
    dsimp only at hb
    rw [hb, if_neg (by omega), edgeValueAt,
      sobelSumX_replicate 100 hi1 hi2 hj1 hj2 hch,
      sobelSumY_replicate 100 hi1 hi2 hj1 hj2 hch]
    decide

theorem uniform_fixed_point_witness :
    byteAt (sobel_edge_filter ⟨3, 3, 1, List.replicate 9 100⟩).data (pxIdx 3 1 1 1 0) = 0 :=
  (uniform_fixed_point 3 3 1).2 1 1 0 (by decide) (by decide) (by decide) (by decide)
    (by decide)

/-! ## The distributed pipeline (src/MPI/image_proc_mpi.c, main)

Scatterv sends byte range `[displs[r], displs[r] + sendcounts[r])` of the full
image to rank `r`; Gatherv writes the processed bands back with the same
counts and displacements, which (because the counts sum to the whole buffer)
makes the gathered image the concatenation of the processed bands in rank
order.  For the stencil filters each rank first posts non-blocking sends of
its first row (to rank-1, tag 0) and last row (to rank+1, tag 1) and receives
`halo_top` (from rank-1, tag 1) and `halo_bottom` (from rank+1, tag 0), then
waits for all requests. -/

/-- One point-to-point message of the halo exchange. -/
structure Msg where
  src : ℕ
  dst : ℕ
  tag : ℕ
  payload : List ℕ

/-- The bytes of `MPI_Isend(local_data, row_size, …)`: the band's first row.
`none` when the send would read outside the band buffer. -/
def firstRow (band : List ℕ) (rowSize : ℕ) : Option (List ℕ) :=
  if rowSize ≤ band.length then some (band.take rowSize) else none

/-- The bytes of `MPI_Isend(local_data + (local_height-1)*row_size, row_size, …)`:
the band's last row.  `none` when `local_height = 0` (the address is below the
buffer) or the range sticks out of the buffer. -/
def lastRow (band : List ℕ) (lh rowSize : ℕ) : Option (List ℕ) :=
  if lh = 0 ∧ 0 < rowSize then none
  else if (lh - 1) * rowSize + rowSize ≤ band.length then
    some ((band.drop ((lh - 1) * rowSize)).take rowSize)
  else none

/-- The last row of a band, as plain bytes (defined when the sends are valid). -/
def lastRowBytes (band : List ℕ) (lh rowSize : ℕ) : List ℕ :=
  (band.drop ((lh - 1) * rowSize)).take rowSize

/-- The messages rank `r` posts (lines 147-168 and 185-206): first row to
rank `r-1` with tag 0 when `r > 0`, last row to rank `r+1` with tag 1 when
`r < size-1`.  `none` when a send reads outside the band buffer. -/
def rankSends (band : List ℕ) (lh rowSize r size : ℕ) : Option (List Msg) := do
  let up ← if 0 < r then (firstRow band rowSize).map fun p => [Msg.mk r (r - 1) 0 p]
           else pure []
  let down ← if r + 1 < size then (lastRow band lh rowSize).map fun p => [Msg.mk r (r + 1) 1 p]
             else pure []
  pure (up ++ down)

/-- The same messages once all sends are known valid. -/
def sendChunk (band : List ℕ) (lh rowSize r size : ℕ) : List Msg :=
  (if 0 < r then [Msg.mk r (r - 1) 0 (band.take rowSize)] else []) ++
  (if r + 1 < size then [Msg.mk r (r + 1) 1 (lastRowBytes band lh rowSize)] else [])

/-- All messages posted by the ranks in `L`, or `none` if any send is
out of bounds. -/
def sendsFrom (band : ℕ → List ℕ) (lh : ℕ → ℕ) (rowSize size : ℕ) :
    List ℕ → Option (List Msg)
  | [] => some []
  | r :: rest => do
      let s ← rankSends (band r) (lh r) rowSize r size
      let srest ← sendsFrom band lh rowSize size rest
      pure (s ++ srest)

/-- The complete halo exchange. -/
def allSends (band : ℕ → List ℕ) (lh : ℕ → ℕ) (rowSize size : ℕ) : Option (List Msg) :=
  sendsFrom band lh rowSize size (List.range size)

/-- `MPI_Irecv` matching: the unique message from `src` to `dst` carrying
`tag` (the receive buffer keeps its calloc contents if no such message was
posted — which never happens in a completed exchange). -/
def recvMsg (sends : List Msg) (src dst tag : ℕ) (dflt : List ℕ) : List ℕ :=
  match sends.find? fun m => m.src == src && m.dst == dst && m.tag == tag with
  | some m => m.payload
  | none => dflt

/-- `halo_top` of rank `r` after the exchange: calloc zeros, overwritten by
the receive from `r-1` with tag 1 when `r > 0`. -/
def haloTopOf (sends : List Msg) (rowSize r : ℕ) : List ℕ :=
  if 0 < r then recvMsg sends (r - 1) r 1 (List.replicate rowSize 0)
  else List.replicate rowSize 0

/-- `halo_bottom` of rank `r` after the exchange: calloc zeros, overwritten
by the receive from `r+1` with tag 0 when `r < size-1`. -/
def haloBottomOf (sends : List Msg) (rowSize r size : ℕ) : List ℕ :=
  if r + 1 < size then recvMsg sends (r + 1) r 0 (List.replicate rowSize 0)
  else List.replicate rowSize 0

/-- Rank `r`'s band: bytes `[displs[r], displs[r] + sendcounts[r])` of the
full image (`MPI_Scatterv`). -/
def bandOf (img : Image) (size r : ℕ) : List ℕ :=
  (img.data.drop (displ img.height size img.width img.channels r)).take
    (sendcount img.height size img.width img.channels r)

/-- The closed set of filters. -/
inductive FilterKind where
  | grayscale
  | blur
  | edge
  | brighten
deriving DecidableEq

/-- The whole distributed pass with `size` workers: scatter, halo exchange
(stencil filters only), per-band kernel, gather by the same counts/offsets.
`none` when the halo exchange reads outside a band buffer (C undefined
behaviour). -/
def mpiRun (img : Image) (f : FilterKind) (size : ℕ) : Option (List ℕ) :=
  let w := img.width
  let h := img.height
  let ch := img.channels
  let rs := w * ch
  let band := fun r => bandOf img size r
  let lh := fun r => localHeight h size r
  match f with
  | .grayscale => some ((List.range size).flatMap fun r =>
      grayscale_filter_mpi (band r) (lh r) w ch)
  | .brighten => some ((List.range size).flatMap fun r =>
      brightness_filter_mpi (band r) 50)
  | .blur =>
      match allSends band lh rs size with
      | none => none
      | some sends => some ((List.range size).flatMap fun r =>
          gaussian_blur_filter_mpi (band r) (haloTopOf sends rs r)
            (haloBottomOf sends rs r size) (lh r) w ch r size)
  | .edge =>
      match allSends band lh rs size with
      | none => none
      | some sends => some ((List.range size).flatMap fun r =>
          sobel_edge_filter_mpi (band r) (haloTopOf sends rs r)
            (haloBottomOf sends rs r size) (lh r) w ch r size)

/-- The reference (single-worker, whole-image) result of one pass, per byte
index. -/
def refByte (img : Image) (f : FilterKind) (k : ℕ) : ℕ :=
  match f with
  | .grayscale =>
      let c := chOf img.channels k
      let base := k - c
      let r := byteAt img.data base
      let g := if 1 < img.channels then byteAt img.data (base + 1) else r
      let b := if 2 < img.channels then byteAt img.data (base + 2) else r
      if c < 3 then grayByte r g b else byteAt img.data k
  | .brighten => brightenByte 50 (byteAt img.data k)
  | .blur =>
      let i := rowOf img.width img.channels k
      let j := colOf img.width img.channels k
      let c := chOf img.channels k
      if i = 0 ∨ i = img.height - 1 then byteAt img.data k
      else if 1 ≤ j ∧ j + 1 < img.width then
        blurSumAt img.data img.width img.channels i j c / 16
      else byteAt img.data k
  | .edge =>
      let i := rowOf img.width img.channels k
      let j := colOf img.width img.channels k
      if i = 0 ∨ i = img.height - 1 then byteAt img.data k
      else if 1 ≤ j ∧ j + 1 < img.width then
        edgeValueAt img.data img.width img.channels i j
      else byteAt img.data k

/-- The reference full output buffer. -/
def refData (img : Image) (f : FilterKind) : List ℕ :=
  (List.range (img.height * img.width * img.channels)).map (refByte img f)

/-! ## Offsets and band access -/

/-- Row offset of rank `r`: the exclusive prefix sum of row counts. -/
def rowOffset (height size r : ℕ) : ℕ :=
  ∑ i ∈ Finset.range r, localHeight height size i

theorem rowOffset_zero (height size : ℕ) : rowOffset height size 0 = 0 := by
  simp [rowOffset]

theorem rowOffset_succ (height size r : ℕ) :
    rowOffset height size (r + 1) = rowOffset height size r + localHeight height size r := by
  simp [rowOffset, Finset.sum_range_succ]

theorem rowOffset_total (height size : ℕ) (hs : 1 ≤ size) :
    rowOffset height size size = height :=
  sum_localHeight_total height size hs

theorem rowOffset_mono (height size : ℕ) {r1 r2 : ℕ} (h : r1 ≤ r2) :
    rowOffset height size r1 ≤ rowOffset height size r2 := by
  unfold rowOffset
  exact Finset.sum_le_sum_of_subset (Finset.range_subset.mpr h)

theorem localHeight_pos (height size r : ℕ) (hs : 1 ≤ size) (hsh : size ≤ height) :
    1 ≤ localHeight height size r := by
  have : 1 ≤ height / size := (Nat.one_le_div_iff (by omega)).mpr hsh
  unfold localHeight
  split <;> omega

theorem le_rowOffset (height size r : ℕ) (hs : 1 ≤ size) (hsh : size ≤ height) :
    r ≤ rowOffset height size r := by
  induction r with
  | zero => simp [rowOffset_zero]
  | succ n ih =>
    rw [rowOffset_succ]
    have := localHeight_pos height size n hs hsh
    omega

theorem displ_eq_rowOffset (height size width channels r : ℕ) :
    displ height size width channels r =
      rowOffset height size r * (width * channels) :=
  displ_eq height size width channels r

theorem displ_succ (height size width channels r : ℕ) :
    displ height size width channels (r + 1) =
      displ height size width channels r + sendcount height size width channels r := rfl

theorem displ_total (height size width channels : ℕ) (hs : 1 ≤ size) :
    displ height size width channels size = height * (width * channels) := by
  rw [displ_eq_rowOffset, rowOffset_total height size hs]

theorem displ_mono (height size width channels : ℕ) {r1 r2 : ℕ} (h : r1 ≤ r2) :
    displ height size width channels r1 ≤ displ height size width channels r2 := by
  rw [displ_eq_rowOffset, displ_eq_rowOffset]
  exact Nat.mul_le_mul_right _ (rowOffset_mono height size h)

/-- Bands fit inside the image buffer. -/
theorem displ_add_sendcount_le (height size width channels r : ℕ)
    (hs : 1 ≤ size) (hr : r < size) :
    displ height size width channels r + sendcount height size width channels r ≤
      height * (width * channels) := by
  rw [← displ_succ, ← displ_total height size width channels hs]
  exact displ_mono height size width channels hr

theorem byteAt_take {l : List ℕ} {n k : ℕ} (hk : k < n) (hl : k < l.length) :
    byteAt (l.take n) k = byteAt l k := by
  rw [byteAt, byteAt, List.getD_eq_getElem _ _ (by simp; omega),
    List.getD_eq_getElem _ _ hl]
  simp [List.getElem_take]

theorem byteAt_drop {l : List ℕ} {d k : ℕ} (h : d + k < l.length) :
    byteAt (l.drop d) k = byteAt l (d + k) := by
  rw [byteAt, byteAt, List.getD_eq_getElem _ _ (by simp; omega),
    List.getD_eq_getElem _ _ h]
  simp [List.getElem_drop]

theorem bandOf_length (img : Image) (size r : ℕ) (hs : 1 ≤ size) (hr : r < size)
    (hlen : img.data.length = img.height * img.width * img.channels) :
    (bandOf img size r).length =
      sendcount img.height size img.width img.channels r := by
  have hb := displ_add_sendcount_le img.height size img.width img.channels r hs hr
  unfold bandOf
  rw [List.length_take, List.length_drop, hlen]
  have : img.height * img.width * img.channels =
      img.height * (img.width * img.channels) := by ring
  omega

theorem byteAt_bandOf (img : Image) (size r : ℕ) (hs : 1 ≤ size) (hr : r < size)
    (hlen : img.data.length = img.height * img.width * img.channels)
    {k : ℕ} (hk : k < sendcount img.height size img.width img.channels r) :
    byteAt (bandOf img size r) k =
      byteAt img.data (displ img.height size img.width img.channels r + k) := by
  have hb := displ_add_sendcount_le img.height size img.width img.channels r hs hr
  have hassoc : img.height * img.width * img.channels =
      img.height * (img.width * img.channels) := by ring
  unfold bandOf
  rw [byteAt_take hk (by rw [List.length_drop, hlen]; omega),
    byteAt_drop (by rw [hlen]; omega)]

/-- A band pixel is the corresponding global pixel. -/
theorem byteAt_bandOf_px (img : Image) (size r : ℕ) (hs : 1 ≤ size) (hr : r < size)
    (hlen : img.data.length = img.height * img.width * img.channels)
    {i j c : ℕ} (hi : i < localHeight img.height size r)
    (hj : j < img.width) (hc : c < img.channels) :
    byteAt (bandOf img size r) (pxIdx img.width img.channels i j c) =
      byteAt img.data
        (pxIdx img.width img.channels (rowOffset img.height size r + i) j c) := by
  have hk : pxIdx img.width img.channels i j c <
      sendcount img.height size img.width img.channels r := by
    have := pxIdx_lt hi hj hc
    unfold sendcount
    calc pxIdx img.width img.channels i j c
        < localHeight img.height size r * img.width * img.channels := this
      _ = localHeight img.height size r * (img.width * img.channels) := by ring
  rw [byteAt_bandOf img size r hs hr hlen hk]
  congr 1
  rw [displ_eq_rowOffset]
  unfold pxIdx
  ring

/-! ## Halo-exchange delivery -/

theorem find?_append {α : Type} (l1 l2 : List α) (p : α → Bool) :
    (l1 ++ l2).find? p = (l1.find? p).or (l2.find? p) := by
  induction l1 with
  | nil => simp
  | cons a t ih =>
    by_cases h : p a = true
    · rw [List.cons_append, List.find?_cons_of_pos _ h, List.find?_cons_of_pos _ h]
      simp
    · rw [List.cons_append, List.find?_cons_of_neg _ (by simp [h]),
        List.find?_cons_of_neg _ (by simp [h]), ih]

theorem rankSends_eq (band : List ℕ) (lh rowSize r size : ℕ)
    (hlen : band.length = lh * rowSize) (hlh : 1 ≤ lh) :
    rankSends band lh rowSize r size = some (sendChunk band lh rowSize r size) := by
  have h1 : rowSize ≤ band.length := by
    rw [hlen]
    calc rowSize = 1 * rowSize := by ring
      _ ≤ lh * rowSize := Nat.mul_le_mul_right _ hlh
  have h2 : ¬(lh = 0 ∧ 0 < rowSize) := by omega
  have h3 : (lh - 1) * rowSize + rowSize ≤ band.length := by
    rw [hlen]
    have he : (lh - 1) * rowSize + rowSize = ((lh - 1) + 1) * rowSize := by ring
    rw [he]
    exact Nat.mul_le_mul_right _ (by omega)
  unfold rankSends sendChunk firstRow lastRow lastRowBytes
  rw [if_pos h1, if_neg h2, if_pos h3]
  split_ifs <;> rfl

theorem sendsFrom_eq (band : ℕ → List ℕ) (lh : ℕ → ℕ) (rowSize size : ℕ)
    (L : List ℕ)
    (hok : ∀ r ∈ L, rankSends (band r) (lh r) rowSize r size =
      some (sendChunk (band r) (lh r) rowSize r size)) :
    sendsFrom band lh rowSize size L =
      some (L.flatMap fun r => sendChunk (band r) (lh r) rowSize r size) := by
  induction L with
  | nil => rfl
  | cons a t ih =>
    rw [sendsFrom, hok a (by simp), ih fun r hr => hok r (by simp [hr])]
    rfl

theorem sendChunk_src {band : List ℕ} {lh rowSize r size : ℕ} {m : Msg}
    (hm : m ∈ sendChunk band lh rowSize r size) : m.src = r := by
  unfold sendChunk at hm
  rcases List.mem_append.mp hm with h | h <;> split at h <;> simp_all

theorem find?_flatMap_sendChunk (band : ℕ → List ℕ) (lh : ℕ → ℕ)
    (rowSize size : ℕ) (L : List ℕ) (hnd : L.Nodup) {src : ℕ} (hsrc : src ∈ L)
    (dst tag : ℕ) :
    ((L.flatMap fun r => sendChunk (band r) (lh r) rowSize r size).find? fun m =>
        m.src == src && m.dst == dst && m.tag == tag) =
      ((sendChunk (band src) (lh src) rowSize src size).find? fun m =>
        m.src == src && m.dst == dst && m.tag == tag) := by
  induction L with
  | nil => cases hsrc
  | cons a t ih =>
    rw [List.flatMap_cons, find?_append]
    rcases List.mem_cons.mp hsrc with h | h
    · subst h
      have hnone : ((t.flatMap fun r => sendChunk (band r) (lh r) rowSize r size).find?
          fun m => m.src == src && m.dst == dst && m.tag == tag) = none := by
        rw [List.find?_eq_none]
        intro m hm
        obtain ⟨r, hrmem, hmchunk⟩ := List.mem_flatMap.mp hm
        have hsm := sendChunk_src hmchunk
        have hne : r ≠ src := fun hEq => (List.nodup_cons.mp hnd).1 (hEq ▸ hrmem)
        simp [hsm, hne]
      rw [hnone]
      cases hfind : ((sendChunk (band src) (lh src) rowSize src size).find?
          fun m => m.src == src && m.dst == dst && m.tag == tag) <;>
        simp [hfind, Option.or]
    · have hne : a ≠ src := fun hEq => (List.nodup_cons.mp hnd).1 (hEq ▸ h)
      have hnone : ((sendChunk (band a) (lh a) rowSize a size).find?
          fun m => m.src == src && m.dst == dst && m.tag == tag) = none := by
        rw [List.find?_eq_none]
        intro m hm
        have hsm := sendChunk_src hm
        simp [hsm, hne]
      rw [hnone, ih (List.nodup_cons.mp hnd).2 h]
      simp [Option.or]

/-- After a completed exchange, `halo_top` of rank `r > 0` holds exactly the
predecessor band's last row. -/
theorem haloTopOf_spec (band : ℕ → List ℕ) (lh : ℕ → ℕ) (rowSize size r : ℕ)
    (hr0 : 0 < r) (hr : r < size) :
    haloTopOf ((List.range size).flatMap fun q => sendChunk (band q) (lh q) rowSize q size)
        rowSize r =
      lastRowBytes (band (r - 1)) (lh (r - 1)) rowSize := by
  unfold haloTopOf recvMsg
  rw [if_pos hr0,
    find?_flatMap_sendChunk band lh rowSize size _ (List.nodup_range size)
      (List.mem_range.mpr (by omega)) _ _]
  unfold sendChunk
  rw [find?_append]
  have h1 : ((if 0 < r - 1 then
      [Msg.mk (r - 1) (r - 1 - 1) 0 ((band (r - 1)).take rowSize)] else []).find?
        fun m => m.src == r - 1 && m.dst == r && m.tag == 1) = none := by
    split <;> simp
  have hr1 : r - 1 + 1 = r := by omega
  have h2 : ((if r - 1 + 1 < size then
      [Msg.mk (r - 1) (r - 1 + 1) 1 (lastRowBytes (band (r - 1)) (lh (r - 1)) rowSize)]
      else []).find? fun m => m.src == r - 1 && m.dst == r && m.tag == 1) =
      some (Msg.mk (r - 1) (r - 1 + 1) 1 (lastRowBytes (band (r - 1)) (lh (r - 1)) rowSize)) := by
    rw [if_pos (by omega)]
    apply List.find?_cons_of_pos
    simp [hr1]
  rw [h1, h2]
  rfl

/-- After a completed exchange, `halo_bottom` of rank `r < size-1` holds
exactly the successor band's first row. -/
theorem haloBottomOf_spec (band : ℕ → List ℕ) (lh : ℕ → ℕ) (rowSize size r : ℕ)
    (hr1 : r + 1 < size) :
    haloBottomOf ((List.range size).flatMap fun q => sendChunk (band q) (lh q) rowSize q size)
        rowSize r size =
      (band (r + 1)).take rowSize := by
  unfold haloBottomOf recvMsg
  rw [if_pos hr1,
    find?_flatMap_sendChunk band lh rowSize size _ (List.nodup_range size)
      (List.mem_range.mpr (by omega)) _ _]
  unfold sendChunk
  rw [find?_append]
  have h1 : ((if 0 < r + 1 then
      [Msg.mk (r + 1) (r + 1 - 1) 0 ((band (r + 1)).take rowSize)] else []).find?
        fun m => m.src == r + 1 && m.dst == r && m.tag == 0) =
      some (Msg.mk (r + 1) (r + 1 - 1) 0 ((band (r + 1)).take rowSize)) := by
    rw [if_pos (by omega)]
    apply List.find?_cons_of_pos
    simp
  rw [h1]
  rfl

/-- When every band is nonempty (`size ≤ height`), every posted send is in
bounds and the exchange delivers the chunks of `sendChunk`. -/
theorem allSends_eq (img : Image) (size : ℕ) (hs : 1 ≤ size)
    (hsh : size ≤ img.height)
    (hlen : img.data.length = img.height * img.width * img.channels) :
    allSends (fun r => bandOf img size r) (fun r => localHeight img.height size r)
        (img.width * img.channels) size =
      some ((List.range size).flatMap fun r =>
        sendChunk (bandOf img size r) (localHeight img.height size r)
          (img.width * img.channels) r size) := by
  apply sendsFrom_eq
  intro r hr
  apply rankSends_eq
  · rw [bandOf_length img size r hs (List.mem_range.mp hr) hlen]
    rfl
  · exact localHeight_pos _ _ _ hs hsh

/-- C7: after the halo exchange completes (all bands nonempty), every band
with a predecessor holds the predecessor band's last row — exactly
`width*channels` bytes — as its `halo_top`, and every band with a successor
holds the successor band's first row as its `halo_bottom`. -/
theorem halo_exchange_content (img : Image) (size : ℕ) (hs : 1 ≤ size)
    (hsh : size ≤ img.height)
    (hlen : img.data.length = img.height * img.width * img.channels) :
    ∀ sends, allSends (fun r => bandOf img size r)
        (fun r => localHeight img.height size r) (img.width * img.channels) size =
        some sends →
      ∀ r, r < size →
        (0 < r →
          haloTopOf sends (img.width * img.channels) r =
            lastRowBytes (bandOf img size (r - 1))
              (localHeight img.height size (r - 1)) (img.width * img.channels) ∧
          (haloTopOf sends (img.width * img.channels) r).length =
            img.width * img.channels) ∧
        (r + 1 < size →
          haloBottomOf sends (img.width * img.channels) r size =
            (bandOf img size (r + 1)).take (img.width * img.channels) ∧
          (haloBottomOf sends (img.width * img.channels) r size).length =
            img.width * img.channels) := by
  intro sends hsends r hr
  rw [allSends_eq img size hs hsh hlen] at hsends
  have hsends2 : sends = (List.range size).flatMap fun q =>
      sendChunk (bandOf img size q) (localHeight img.height size q)
        (img.width * img.channels) q size := by
    exact (Option.some.injEq _ _).mp hsends.symm
  subst hsends2
  constructor
  · intro hr0
    have htop := haloTopOf_spec (fun q => bandOf img size q)
      (fun q => localHeight img.height size q) (img.width * img.channels) size r hr0 hr
    refine ⟨htop, ?_⟩
    rw [htop]
    beta_reduce
    have hblen := bandOf_length img size (r - 1) hs (by omega) hlen
    have hpos := localHeight_pos img.height size (r - 1) hs hsh
    unfold lastRowBytes
    rw [List.length_take, List.length_drop, hblen]
    unfold sendcount
    have : localHeight img.height size (r - 1) * (img.width * img.channels) =
        (localHeight img.height size (r - 1) - 1) * (img.width * img.channels) +
          img.width * img.channels := by
      have he : localHeight img.height size (r - 1) =
          (localHeight img.height size (r - 1) - 1) + 1 := by omega
      calc localHeight img.height size (r - 1) * (img.width * img.channels)
          = ((localHeight img.height size (r - 1) - 1) + 1) * (img.width * img.channels) := by
            rw [← he]
        _ = (localHeight img.height size (r - 1) - 1) * (img.width * img.channels) +
            img.width * img.channels := by ring
    omega
  · intro hr1
    have hbot := haloBottomOf_spec (fun q => bandOf img size q)
      (fun q => localHeight img.height size q) (img.width * img.channels) size r hr1
    refine ⟨hbot, ?_⟩
    rw [hbot]
    beta_reduce
    have hblen := bandOf_length img size (r + 1) hs (by omega) hlen
    have hpos := localHeight_pos img.height size (r + 1) hs hsh
    rw [List.length_take, hblen]
    unfold sendcount
    have : img.width * img.channels ≤
        localHeight img.height size (r + 1) * (img.width * img.channels) := by
      calc img.width * img.channels = 1 * (img.width * img.channels) := by ring
        _ ≤ localHeight img.height size (r + 1) * (img.width * img.channels) :=
          Nat.mul_le_mul_right _ hpos
    omega

theorem halo_exchange_content_witness :
    haloTopOf ((List.range 2).flatMap fun q =>
        sendChunk (bandOf ⟨1, 2, 1, [5, 9]⟩ 2 q) (localHeight 2 2 q) 1 q 2) 1 1 =
      lastRowBytes (bandOf ⟨1, 2, 1, [5, 9]⟩ 2 0) (localHeight 2 2 0) 1 :=
  ((halo_exchange_content ⟨1, 2, 1, [5, 9]⟩ 2 (by decide) (by decide) (by decide) _
    rfl 1 (by decide)).1 (by decide)).1

/-- C8: the code does not tolerate zero-row bands during the stencil halo
exchange.  With height 1 and two workers, rank 1 owns zero rows but (because
`rank > 0`) still posts a `width*channels`-byte send starting at its empty
band buffer, reading outside it; the model aborts (`none`) for blur and edge,
while the pointwise brighten pass completes normally on the same partition. -/
theorem zero_row_band_oob :
    mpiRun ⟨1, 1, 3, [10, 20, 30]⟩ .blur 2 = none ∧
      mpiRun ⟨1, 1, 3, [10, 20, 30]⟩ .edge 2 = none ∧
      mpiRun ⟨1, 1, 3, [10, 20, 30]⟩ .brighten 2 = some [60, 70, 80] := by
  refine ⟨by decide, by decide, by decide⟩

/-! ## Band-to-global correspondence for the stencil filters -/

theorem rowsize_lt {w ch j c : ℕ} (hj : j < w) (hc : c < ch) : j * ch + c < w * ch := by
  calc j * ch + c < j * ch + ch := by omega
    _ = (j + 1) * ch := by ring
    _ ≤ w * ch := Nat.mul_le_mul_right _ hj

theorem byteAt_lastRowBytes {band : List ℕ} {lh rs t : ℕ}
    (hlen : band.length = lh * rs) (hlh : 1 ≤ lh) (ht : t < rs) :
    byteAt (lastRowBytes band lh rs) t = byteAt band ((lh - 1) * rs + t) := by
  have he : (lh - 1) * rs + rs = lh * rs := by
    calc (lh - 1) * rs + rs = ((lh - 1) + 1) * rs := by ring
      _ = lh * rs := by rw [Nat.sub_add_cancel hlh]
  unfold lastRowBytes
  rw [byteAt_take ht (by rw [List.length_drop, hlen]; omega),
    byteAt_drop (by rw [hlen]; omega)]

/-- The MPI skip condition (global top row of rank 0 / global bottom row of
the last rank) is exactly "the global row is 0 or height-1", provided every
band is nonempty. -/
theorem skip_iff (height size r : ℕ) (hs : 1 ≤ size) (hr : r < size)
    (hsh : size ≤ height) {i : ℕ} (hi : i < localHeight height size r) :
    ((r = 0 ∧ i = 0) ∨ (r = size - 1 ∧ i = localHeight height size r - 1)) ↔
      (rowOffset height size r + i = 0 ∨ rowOffset height size r + i = height - 1) := by
  have hO0 : rowOffset height size 0 = 0 := rowOffset_zero height size
  have hOr : r ≤ rowOffset height size r := le_rowOffset height size r hs hsh
  have hsucc : rowOffset height size (r + 1) =
      rowOffset height size r + localHeight height size r := rowOffset_succ height size r
  have hpos : 1 ≤ localHeight height size r := localHeight_pos _ _ _ hs hsh
  constructor
  · rintro (⟨hr0, hi0⟩ | ⟨hrl, hil⟩)
    · left
      rw [hr0, hi0, hO0]
    · right
      have hs1 : r + 1 = size := by omega
      have htot : rowOffset height size r + localHeight height size r = height := by
        rw [← hsucc, hs1, rowOffset_total height size hs]
      omega
  · intro h
    rcases h with h0 | hl
    · left
      omega
    · by_cases hr1 : r + 1 < size
      · exfalso
        have hgap : rowOffset height size r + localHeight height size r +
            localHeight height size (r + 1) ≤ height := by
          have e1 : rowOffset height size (r + 2) =
              rowOffset height size r + localHeight height size r +
                localHeight height size (r + 1) := by
            rw [rowOffset_succ height size (r + 1), rowOffset_succ height size r]
          have e2 : rowOffset height size (r + 2) ≤ height :=
            le_of_le_of_eq (rowOffset_mono height size (show r + 2 ≤ size by omega))
              (rowOffset_total height size hs)
          omega
        have hp2 : 1 ≤ localHeight height size (r + 1) :=
          localHeight_pos height size (r + 1) hs hsh
        omega
      · right
        have hs1 : r + 1 = size := by omega
        have htot : rowOffset height size r + localHeight height size r = height := by
          rw [← hsucc, hs1, rowOffset_total height size hs]
        omega

/-- Evaluation of the MPI blur at band pixel (`i`, `j`, channel `c`). -/
theorem gaussian_blur_filter_mpi_byte (band ht hb : List ℕ)
    (lh w ch rank size : ℕ) {i j c : ℕ} (hi : i < lh) (hj : j < w) (hc : c < ch) :
    byteAt (gaussian_blur_filter_mpi band ht hb lh w ch rank size) (pxIdx w ch i j c) =
      if (rank = 0 ∧ i = 0) ∨ (rank = size - 1 ∧ i = lh - 1) then
        byteAt band (pxIdx w ch i j c)
      else if 1 ≤ j ∧ j + 1 < w then blurSumMpi band ht hb lh w ch i j c / 16
      else byteAt band (pxIdx w ch i j c) := by
  simp only [gaussian_blur_filter_mpi]
  rw [byteAt_ofFn _ (pxIdx_lt hi hj hc)]
  simp only [rowOf_pxIdx _ hj hc, colOf_pxIdx _ hj hc, chOf_pxIdx _ _ _ hc]

/-- Evaluation of the MPI edge filter at band pixel (`i`, `j`, channel `c`). -/
theorem sobel_edge_filter_mpi_byte (band ht hb : List ℕ)
    (lh w ch rank size : ℕ) {i j c : ℕ} (hi : i < lh) (hj : j < w) (hc : c < ch) :
    byteAt (sobel_edge_filter_mpi band ht hb lh w ch rank size) (pxIdx w ch i j c) =
      if (rank = 0 ∧ i = 0) ∨ (rank = size - 1 ∧ i = lh - 1) then
        byteAt band (pxIdx w ch i j c)
      else if 1 ≤ j ∧ j + 1 < w then edgeValueMpi band ht hb lh w ch i j
      else byteAt band (pxIdx w ch i j c) := by
  simp only [sobel_edge_filter_mpi]
  rw [byteAt_ofFn _ (pxIdx_lt hi hj hc)]
  simp only [rowOf_pxIdx _ hj hc, colOf_pxIdx _ hj hc]

/-- At a non-skipped band row, a stencil neighbourhood read (through band,
halo_top or halo_bottom) is the corresponding global input pixel. -/
theorem bandRead_eq (img : Image) (size r : ℕ) (hs : 1 ≤ size) (hr : r < size)
    (hsh : size ≤ img.height)
    (hlen : img.data.length = img.height * img.width * img.channels)
    {i di nj c : ℕ} (hi : i < localHeight img.height size r) (hdi : di < 3)
    (hnj : nj < img.width) (hc : c < img.channels)
    (hnoskip : ¬((r = 0 ∧ i = 0) ∨
      (r = size - 1 ∧ i = localHeight img.height size r - 1))) :
    bandRead (bandOf img size r)
        (haloTopOf ((List.range size).flatMap fun q =>
          sendChunk (bandOf img size q) (localHeight img.height size q)
            (img.width * img.channels) q size) (img.width * img.channels) r)
        (haloBottomOf ((List.range size).flatMap fun q =>
          sendChunk (bandOf img size q) (localHeight img.height size q)
            (img.width * img.channels) q size) (img.width * img.channels) r size)
        (localHeight img.height size r) img.width img.channels
        ((i : ℤ) + di - 1) nj c =
      byteAt img.data
        (pxIdx img.width img.channels
          (rowOffset img.height size r + i - 1 + di) nj c) := by
  have hgb : ¬(rowOffset img.height size r + i = 0 ∨
      rowOffset img.height size r + i = img.height - 1) := fun hcontra =>
    hnoskip ((skip_iff img.height size r hs hr hsh hi).mpr hcontra)
  have hgi1 : 1 ≤ rowOffset img.height size r + i := by omega
  have ht : nj * img.channels + c < img.width * img.channels := rowsize_lt hnj hc
  by_cases hni : (i : ℤ) + di - 1 < 0
  · have hia : i = 0 := by omega
    have hdia : di = 0 := by omega
    have hr0 : 0 < r := by
      rcases Nat.eq_zero_or_pos r with h0 | h1
      · exact absurd (Or.inl ⟨h0, hia⟩) hnoskip
      · exact h1
    unfold bandRead
    rw [if_pos hni,
      haloTopOf_spec (fun q => bandOf img size q)
        (fun q => localHeight img.height size q) (img.width * img.channels) size r hr0 hr]
    have hlenb := bandOf_length img size (r - 1) hs (by omega) hlen
    have hposb := localHeight_pos img.height size (r - 1) hs hsh
    rw [byteAt_lastRowBytes (by rw [hlenb]; rfl) hposb ht]
    have hidx : (localHeight img.height size (r - 1) - 1) * (img.width * img.channels) +
        (nj * img.channels + c) =
        pxIdx img.width img.channels (localHeight img.height size (r - 1) - 1) nj c := by
      unfold pxIdx; ring
    rw [hidx, byteAt_bandOf_px img size (r - 1) hs (by omega) hlen
      (by omega) hnj hc]
    have hrw : rowOffset img.height size r =
        rowOffset img.height size (r - 1) + localHeight img.height size (r - 1) := by
      have h2 := rowOffset_succ img.height size (r - 1)
      rwa [show r - 1 + 1 = r by omega] at h2
    have hrow : rowOffset img.height size (r - 1) +
        (localHeight img.height size (r - 1) - 1) =
        rowOffset img.height size r + i - 1 + di := by omega
    rw [hrow]
  · by_cases hge : (localHeight img.height size r : ℤ) ≤ (i : ℤ) + di - 1
    · have hia : i = localHeight img.height size r - 1 := by omega
      have hdia : di = 2 := by omega
      have hrlast : r + 1 < size := by
        by_contra hcon
        exact hnoskip (Or.inr ⟨by omega, hia⟩)
      unfold bandRead
      rw [if_neg hni, if_pos hge,
        haloBottomOf_spec (fun q => bandOf img size q)
          (fun q => localHeight img.height size q) (img.width * img.channels) size r hrlast]
      have hlenb := bandOf_length img size (r + 1) hs (by omega) hlen
      have hposb := localHeight_pos img.height size (r + 1) hs hsh
      have hlenge : img.width * img.channels ≤ (bandOf img size (r + 1)).length := by
        rw [hlenb]
        unfold sendcount
        calc img.width * img.channels = 1 * (img.width * img.channels) := by ring
          _ ≤ localHeight img.height size (r + 1) * (img.width * img.channels) :=
            Nat.mul_le_mul_right _ hposb
      rw [byteAt_take ht (by omega)]
      have hidx : nj * img.channels + c = pxIdx img.width img.channels 0 nj c := by
        unfold pxIdx; ring
      rw [hidx, byteAt_bandOf_px img size (r + 1) hs (by omega) hlen hposb hnj hc]
      have hrw : rowOffset img.height size (r + 1) =
          rowOffset img.height size r + localHeight img.height size r :=
        rowOffset_succ img.height size r
      have hposr := localHeight_pos img.height size r hs hsh
      have hrow : rowOffset img.height size (r + 1) + 0 =
          rowOffset img.height size r + i - 1 + di := by omega
      rw [hrow]
    · unfold bandRead
      rw [if_neg hni, if_neg hge]
      have htn : ((i : ℤ) + di - 1).toNat = i + di - 1 := by omega
      rw [htn]
      have hlt : i + di - 1 < localHeight img.height size r := by omega
      rw [byteAt_bandOf_px img size r hs hr hlen hlt hnj hc]
      have hrow : rowOffset img.height size r + (i + di - 1) =
          rowOffset img.height size r + i - 1 + di := by omega
      rw [hrow]

theorem pos_of_lt_sendcount {height size width channels r k : ℕ}
    (hk : k < sendcount height size width channels r) :
    0 < width ∧ 0 < channels ∧ 0 < localHeight height size r := by
  unfold sendcount at hk
  refine ⟨?_, ?_, ?_⟩
  · rcases Nat.eq_zero_or_pos width with h0 | h1
    · subst h0
      simp at hk
    · exact h1
  · rcases Nat.eq_zero_or_pos channels with h0 | h1
    · subst h0
      simp at hk
    · exact h1
  · rcases Nat.eq_zero_or_pos (localHeight height size r) with h0 | h1
    · rw [h0] at hk
      simp at hk
    · exact h1

/-- Evaluation of the reference grayscale byte at pixel coordinates. -/
theorem refByte_grayscale_px (img : Image) {gi j c : ℕ} (hgi : gi < img.height)
    (hj : j < img.width) (hc : c < img.channels) :
    refByte img .grayscale (pxIdx img.width img.channels gi j c) =
      if c < 3 then
        grayByte (byteAt img.data (pxIdx img.width img.channels gi j 0))
          (if 1 < img.channels then byteAt img.data (pxIdx img.width img.channels gi j 1)
           else byteAt img.data (pxIdx img.width img.channels gi j 0))
          (if 2 < img.channels then byteAt img.data (pxIdx img.width img.channels gi j 2)
           else byteAt img.data (pxIdx img.width img.channels gi j 0))
      else byteAt img.data (pxIdx img.width img.channels gi j c) := by
  simp only [refByte]
  simp only [chOf_pxIdx _ _ _ hc]
  have hb0 : pxIdx img.width img.channels gi j c - c =
      pxIdx img.width img.channels gi j 0 := by unfold pxIdx; omega
  have hb1 : pxIdx img.width img.channels gi j c - c + 1 =
      pxIdx img.width img.channels gi j 1 := by unfold pxIdx; omega
  have hb2 : pxIdx img.width img.channels gi j c - c + 2 =
      pxIdx img.width img.channels gi j 2 := by unfold pxIdx; omega
  rw [hb1, hb2, hb0]

/-- Evaluation of the reference blur byte at pixel coordinates. -/
theorem refByte_blur_px (img : Image) {gi j c : ℕ} (hgi : gi < img.height)
    (hj : j < img.width) (hc : c < img.channels) :
    refByte img .blur (pxIdx img.width img.channels gi j c) =
      if gi = 0 ∨ gi = img.height - 1 then
        byteAt img.data (pxIdx img.width img.channels gi j c)
      else if 1 ≤ j ∧ j + 1 < img.width then
        blurSumAt img.data img.width img.channels gi j c / 16
      else byteAt img.data (pxIdx img.width img.channels gi j c) := by
  simp only [refByte]
  simp only [rowOf_pxIdx _ hj hc, colOf_pxIdx _ hj hc, chOf_pxIdx _ _ _ hc]

/-- Evaluation of the reference edge byte at pixel coordinates. -/
theorem refByte_edge_px (img : Image) {gi j c : ℕ} (hgi : gi < img.height)
    (hj : j < img.width) (hc : c < img.channels) :
    refByte img .edge (pxIdx img.width img.channels gi j c) =
      if gi = 0 ∨ gi = img.height - 1 then
        byteAt img.data (pxIdx img.width img.channels gi j c)
      else if 1 ≤ j ∧ j + 1 < img.width then
        edgeValueAt img.data img.width img.channels gi j
      else byteAt img.data (pxIdx img.width img.channels gi j c) := by
  simp only [refByte]
  simp only [rowOf_pxIdx _ hj hc, colOf_pxIdx _ hj hc]

/-- The MPI blur stencil sum at a non-skipped band row equals the global blur
stencil sum at the corresponding image row. -/
theorem blurSumMpi_eq (img : Image) (size r : ℕ) (hs : 1 ≤ size) (hr : r < size)
    (hsh : size ≤ img.height)
    (hlen : img.data.length = img.height * img.width * img.channels)
    {i j c : ℕ} (hi : i < localHeight img.height size r)
    (hnoskip : ¬((r = 0 ∧ i = 0) ∨
      (r = size - 1 ∧ i = localHeight img.height size r - 1)))
    (hj1 : 1 ≤ j) (hj2 : j + 1 < img.width) (hc : c < img.channels) :
    blurSumMpi (bandOf img size r)
        (haloTopOf ((List.range size).flatMap fun q =>
          sendChunk (bandOf img size q) (localHeight img.height size q)
            (img.width * img.channels) q size) (img.width * img.channels) r)
        (haloBottomOf ((List.range size).flatMap fun q =>
          sendChunk (bandOf img size q) (localHeight img.height size q)
            (img.width * img.channels) q size) (img.width * img.channels) r size)
        (localHeight img.height size r) img.width img.channels i j c =
      blurSumAt img.data img.width img.channels
        (rowOffset img.height size r + i) j c := by
  unfold blurSumMpi blurSumAt
  apply Finset.sum_congr rfl
  intro di hdi
  apply Finset.sum_congr rfl
  intro dj hdj
  congr 1
  exact bandRead_eq img size r hs hr hsh hlen hi (Finset.mem_range.mp hdi)
    (by have := Finset.mem_range.mp hdj; omega) hc hnoskip

/-- The MPI Sobel `Gx` sum at a non-skipped band row equals the global one. -/
theorem sobelSumXMpi_eq (img : Image) (size r : ℕ) (hs : 1 ≤ size) (hr : r < size)
    (hsh : size ≤ img.height)
    (hlen : img.data.length = img.height * img.width * img.channels)
    {i j : ℕ} (hi : i < localHeight img.height size r)
    (hnoskip : ¬((r = 0 ∧ i = 0) ∨
      (r = size - 1 ∧ i = localHeight img.height size r - 1)))
    (hj1 : 1 ≤ j) (hj2 : j + 1 < img.width) (hch : 0 < img.channels) :
    sobelSumXMpi (bandOf img size r)
        (haloTopOf ((List.range size).flatMap fun q =>
          sendChunk (bandOf img size q) (localHeight img.height size q)
            (img.width * img.channels) q size) (img.width * img.channels) r)
        (haloBottomOf ((List.range size).flatMap fun q =>
          sendChunk (bandOf img size q) (localHeight img.height size q)
            (img.width * img.channels) q size) (img.width * img.channels) r size)
        (localHeight img.height size r) img.width img.channels i j =
      sobelSumX img.data img.width img.channels
        (rowOffset img.height size r + i) j := by
  unfold sobelSumXMpi sobelSumX
  apply Finset.sum_congr rfl
  intro di hdi
  apply Finset.sum_congr rfl
  intro dj hdj
  congr 1
  rw [bandRead_eq img size r hs hr hsh hlen hi (Finset.mem_range.mp hdi)
    (by have := Finset.mem_range.mp hdj; omega) hch hnoskip]

/-- The MPI Sobel `Gy` sum at a non-skipped band row equals the global one. -/
theorem sobelSumYMpi_eq (img : Image) (size r : ℕ) (hs : 1 ≤ size) (hr : r < size)
    (hsh : size ≤ img.height)
    (hlen : img.data.length = img.height * img.width * img.channels)
    {i j : ℕ} (hi : i < localHeight img.height size r)
    (hnoskip : ¬((r = 0 ∧ i = 0) ∨
      (r = size - 1 ∧ i = localHeight img.height size r - 1)))
    (hj1 : 1 ≤ j) (hj2 : j + 1 < img.width) (hch : 0 < img.channels) :
    sobelSumYMpi (bandOf img size r)
        (haloTopOf ((List.range size).flatMap fun q =>
          sendChunk (bandOf img size q) (localHeight img.height size q)
            (img.width * img.channels) q size) (img.width * img.channels) r)
        (haloBottomOf ((List.range size).flatMap fun q =>
          sendChunk (bandOf img size q) (localHeight img.height size q)
            (img.width * img.channels) q size) (img.width * img.channels) r size)
        (localHeight img.height size r) img.width img.channels i j =
      sobelSumY img.data img.width img.channels
        (rowOffset img.height size r + i) j := by
  unfold sobelSumYMpi sobelSumY
  apply Finset.sum_congr rfl
  intro di hdi
  apply Finset.sum_congr rfl
  intro dj hdj
  congr 1
  rw [bandRead_eq img size r hs hr hsh hlen hi (Finset.mem_range.mp hdi)
    (by have := Finset.mem_range.mp hdj; omega) hch hnoskip]

theorem byteAt_map (f : ℕ → ℕ) (l : List ℕ) {k : ℕ} (hk : k < l.length) :
    byteAt (l.map f) k = f (byteAt l k) := by
  rw [byteAt, byteAt, List.getD_eq_getElem _ _ (by simpa using hk),
    List.getD_eq_getElem _ _ hk, List.getElem_map]

theorem byteAt_range_map (g : ℕ → ℕ) {n t : ℕ} (ht : t < n) :
    byteAt ((List.range n).map g) t = g t := by
  rw [byteAt, List.getD_eq_getElem _ _ (by simpa using ht)]
  simp

/-- The edge value computed on a band (with halos) at a non-skipped row is
the global edge value. -/
theorem edgeValueMpi_eq (img : Image) (size r : ℕ) (hs : 1 ≤ size) (hr : r < size)
    (hsh : size ≤ img.height)
    (hlen : img.data.length = img.height * img.width * img.channels)
    {i j : ℕ} (hi : i < localHeight img.height size r)
    (hnoskip : ¬((r = 0 ∧ i = 0) ∨
      (r = size - 1 ∧ i = localHeight img.height size r - 1)))
    (hj1 : 1 ≤ j) (hj2 : j + 1 < img.width) (hch : 0 < img.channels) :
    edgeValueMpi (bandOf img size r)
        (haloTopOf ((List.range size).flatMap fun q =>
          sendChunk (bandOf img size q) (localHeight img.height size q)
            (img.width * img.channels) q size) (img.width * img.channels) r)
        (haloBottomOf ((List.range size).flatMap fun q =>
          sendChunk (bandOf img size q) (localHeight img.height size q)
            (img.width * img.channels) q size) (img.width * img.channels) r size)
        (localHeight img.height size r) img.width img.channels i j =
      edgeValueAt img.data img.width img.channels
        (rowOffset img.height size r + i) j := by
  unfold edgeValueMpi edgeValueAt
  rw [sobelSumXMpi_eq img size r hs hr hsh hlen hi hnoskip hj1 hj2 hch,
    sobelSumYMpi_eq img size r hs hr hsh hlen hi hnoskip hj1 hj2 hch]

/-- One processed blur-band byte is the reference byte at its global index. -/
theorem blur_band_byte_eq (img : Image) (size r : ℕ) (hs : 1 ≤ size) (hr : r < size)
    (hsh : size ≤ img.height)
    (hlen : img.data.length = img.height * img.width * img.channels)
    {k : ℕ} (hk : k < sendcount img.height size img.width img.channels r) :
    byteAt (gaussian_blur_filter_mpi (bandOf img size r)
        (haloTopOf ((List.range size).flatMap fun q =>
          sendChunk (bandOf img size q) (localHeight img.height size q)
            (img.width * img.channels) q size) (img.width * img.channels) r)
        (haloBottomOf ((List.range size).flatMap fun q =>
          sendChunk (bandOf img size q) (localHeight img.height size q)
            (img.width * img.channels) q size) (img.width * img.channels) r size)
        (localHeight img.height size r) img.width img.channels r size) k =
      refByte img .blur (displ img.height size img.width img.channels r + k) := by
  obtain ⟨hw, hch, hlh⟩ := pos_of_lt_sendcount hk
  have hk2 : k < localHeight img.height size r * img.width * img.channels := by
    unfold sendcount at hk
    calc k < localHeight img.height size r * (img.width * img.channels) := hk
      _ = localHeight img.height size r * img.width * img.channels := by ring
  have hi : rowOf img.width img.channels k < localHeight img.height size r := rowOf_lt hk2
  have hj : colOf img.width img.channels k < img.width := colOf_lt hch hw
  have hc : chOf img.channels k < img.channels := chOf_lt k hch
  have hdec := pxIdx_decomp img.width k hch
  set i := rowOf img.width img.channels k with hidef
  set j := colOf img.width img.channels k with hjdef
  set c := chOf img.channels k with hcdef
  have hgi : rowOffset img.height size r + i < img.height := by
    have h1 := rowOffset_succ img.height size r
    have h2 : rowOffset img.height size (r + 1) ≤ img.height :=
      le_of_le_of_eq (rowOffset_mono img.height size hr)
        (rowOffset_total img.height size hs)
    omega
  have hK : displ img.height size img.width img.channels r + k =
      pxIdx img.width img.channels (rowOffset img.height size r + i) j c := by
    conv_lhs => rw [← hdec]
    rw [displ_eq_rowOffset]
    unfold pxIdx
    ring
  rw [hK, ← hdec, gaussian_blur_filter_mpi_byte _ _ _ _ _ _ _ _ hi hj hc,
    refByte_blur_px img hgi hj hc]
  by_cases hskip : (r = 0 ∧ i = 0) ∨
      (r = size - 1 ∧ i = localHeight img.height size r - 1)
  · rw [if_pos hskip, if_pos ((skip_iff img.height size r hs hr hsh hi).mp hskip)]
    exact byteAt_bandOf_px img size r hs hr hlen hi hj hc
  · rw [if_neg hskip,
      if_neg (fun hcon => hskip ((skip_iff img.height size r hs hr hsh hi).mpr hcon))]
    by_cases hjint : 1 ≤ j ∧ j + 1 < img.width
    · rw [if_pos hjint, if_pos hjint,
        blurSumMpi_eq img size r hs hr hsh hlen hi hskip hjint.1 hjint.2 hc]
    · rw [if_neg hjint, if_neg hjint]
      exact byteAt_bandOf_px img size r hs hr hlen hi hj hc

/-- One processed edge-band byte is the reference byte at its global index. -/
theorem edge_band_byte_eq (img : Image) (size r : ℕ) (hs : 1 ≤ size) (hr : r < size)
    (hsh : size ≤ img.height)
    (hlen : img.data.length = img.height * img.width * img.channels)
    {k : ℕ} (hk : k < sendcount img.height size img.width img.channels r) :
    byteAt (sobel_edge_filter_mpi (bandOf img size r)
        (haloTopOf ((List.range size).flatMap fun q =>
          sendChunk (bandOf img size q) (localHeight img.height size q)
            (img.width * img.channels) q size) (img.width * img.channels) r)
        (haloBottomOf ((List.range size).flatMap fun q =>
          sendChunk (bandOf img size q) (localHeight img.height size q)
            (img.width * img.channels) q size) (img.width * img.channels) r size)
        (localHeight img.height size r) img.width img.channels r size) k =
      refByte img .edge (displ img.height size img.width img.channels r + k) := by
  obtain ⟨hw, hch, hlh⟩ := pos_of_lt_sendcount hk
  have hk2 : k < localHeight img.height size r * img.width * img.channels := by
    unfold sendcount at hk
    calc k < localHeight img.height size r * (img.width * img.channels) := hk
      _ = localHeight img.height size r * img.width * img.channels := by ring
  have hi : rowOf img.width img.channels k < localHeight img.height size r := rowOf_lt hk2
  have hj : colOf img.width img.channels k < img.width := colOf_lt hch hw
  have hc : chOf img.channels k < img.channels := chOf_lt k hch
  have hdec := pxIdx_decomp img.width k hch
  set i := rowOf img.width img.channels k with hidef
  set j := colOf img.width img.channels k with hjdef
  set c := chOf img.channels k with hcdef
  have hgi : rowOffset img.height size r + i < img.height := by
    have h1 := rowOffset_succ img.height size r
    have h2 : rowOffset img.height size (r + 1) ≤ img.height :=
      le_of_le_of_eq (rowOffset_mono img.height size hr)
        (rowOffset_total img.height size hs)
    omega
  have hK : displ img.height size img.width img.channels r + k =
      pxIdx img.width img.channels (rowOffset img.height size r + i) j c := by
    conv_lhs => rw [← hdec]
    rw [displ_eq_rowOffset]
    unfold pxIdx
    ring
  rw [hK, ← hdec, sobel_edge_filter_mpi_byte _ _ _ _ _ _ _ _ hi hj hc,
    refByte_edge_px img hgi hj hc]
  by_cases hskip : (r = 0 ∧ i = 0) ∨
      (r = size - 1 ∧ i = localHeight img.height size r - 1)
  · rw [if_pos hskip, if_pos ((skip_iff img.height size r hs hr hsh hi).mp hskip)]
    exact byteAt_bandOf_px img size r hs hr hlen hi hj hc
  · rw [if_neg hskip,
      if_neg (fun hcon => hskip ((skip_iff img.height size r hs hr hsh hi).mpr hcon))]
    by_cases hjint : 1 ≤ j ∧ j + 1 < img.width
    · rw [if_pos hjint, if_pos hjint,
        edgeValueMpi_eq img size r hs hr hsh hlen hi hskip hjint.1 hjint.2 hch]
    · rw [if_neg hjint, if_neg hjint]
      exact byteAt_bandOf_px img size r hs hr hlen hi hj hc

/-- One processed grayscale-band byte is the reference byte at its global
index. -/
theorem grayscale_band_byte_eq (img : Image) (size r : ℕ) (hs : 1 ≤ size)
    (hr : r < size)
    (hlen : img.data.length = img.height * img.width * img.channels)
    {k : ℕ} (hk : k < sendcount img.height size img.width img.channels r) :
    byteAt (grayscale_filter_mpi (bandOf img size r)
        (localHeight img.height size r) img.width img.channels) k =
      refByte img .grayscale (displ img.height size img.width img.channels r + k) := by
  obtain ⟨hw, hch, hlh⟩ := pos_of_lt_sendcount hk
  have hk2 : k < localHeight img.height size r * img.width * img.channels := by
    unfold sendcount at hk
    calc k < localHeight img.height size r * (img.width * img.channels) := hk
      _ = localHeight img.height size r * img.width * img.channels := by ring
  have hi : rowOf img.width img.channels k < localHeight img.height size r := rowOf_lt hk2
  have hj : colOf img.width img.channels k < img.width := colOf_lt hch hw
  have hc : chOf img.channels k < img.channels := chOf_lt k hch
  have hdec := pxIdx_decomp img.width k hch
  set i := rowOf img.width img.channels k with hidef
  set j := colOf img.width img.channels k with hjdef
  set c := chOf img.channels k with hcdef
  have hgi : rowOffset img.height size r + i < img.height := by
    have h1 := rowOffset_succ img.height size r
    have h2 : rowOffset img.height size (r + 1) ≤ img.height :=
      le_of_le_of_eq (rowOffset_mono img.height size hr)
        (rowOffset_total img.height size hs)
    omega
  have hK : displ img.height size img.width img.channels r + k =
      pxIdx img.width img.channels (rowOffset img.height size r + i) j c := by
    conv_lhs => rw [← hdec]
    rw [displ_eq_rowOffset]
    unfold pxIdx
    ring
  have e0 : byteAt (bandOf img size r) (pxIdx img.width img.channels i j 0) =
      byteAt img.data
        (pxIdx img.width img.channels (rowOffset img.height size r + i) j 0) :=
    byteAt_bandOf_px img size r hs hr hlen hi hj hch
  rw [hK, ← hdec, grayscale_filter_mpi_byte _ hi hj hc,
    refByte_grayscale_px img hgi hj hc]
  by_cases h3 : c < 3
  · rw [if_pos h3, if_pos h3, e0]
    by_cases h1 : 1 < img.channels
    · rw [if_pos h1, if_pos h1, byteAt_bandOf_px img size r hs hr hlen hi hj h1]
      by_cases h2c : 2 < img.channels
      · rw [if_pos h2c, if_pos h2c, byteAt_bandOf_px img size r hs hr hlen hi hj h2c]
      · rw [if_neg h2c, if_neg h2c]
    · rw [if_neg h1, if_neg h1]
      by_cases h2c : 2 < img.channels
      · rw [if_pos h2c, if_pos h2c, byteAt_bandOf_px img size r hs hr hlen hi hj h2c]
      · rw [if_neg h2c, if_neg h2c]
  · rw [if_neg h3, if_neg h3]
    exact byteAt_bandOf_px img size r hs hr hlen hi hj hc

/-- One processed brighten-band byte is the reference byte at its global
index. -/
theorem brighten_band_byte_eq (img : Image) (size r : ℕ) (hs : 1 ≤ size)
    (hr : r < size)
    (hlen : img.data.length = img.height * img.width * img.channels)
    {k : ℕ} (hk : k < sendcount img.height size img.width img.channels r) :
    byteAt (brightness_filter_mpi (bandOf img size r) 50) k =
      refByte img .brighten (displ img.height size img.width img.channels r + k) := by
  have hlenb := bandOf_length img size r hs hr hlen
  simp only [brightness_filter_mpi, refByte]
  rw [byteAt_map _ _ (by rw [hlenb]; exact hk),
    byteAt_bandOf img size r hs hr hlen hk]

/-- Gatherv with the scatter counts/offsets: concatenating the per-rank chunks
in rank order yields the prefix of the reference buffer. -/
theorem flatMap_chunks (height size width channels : ℕ) (chunk : ℕ → List ℕ)
    (g : ℕ → ℕ)
    (hchunk : ∀ r, r < size → chunk r =
      (List.range (sendcount height size width channels r)).map
        fun t => g (displ height size width channels r + t)) :
    ∀ n, n ≤ size → (List.range n).flatMap chunk =
      (List.range (displ height size width channels n)).map g := by
  intro n
  induction n with
  | zero => intro _; rfl
  | succ m ih =>
    intro hm
    rw [List.range_succ, List.flatMap_append, ih (by omega)]
    have hone : [m].flatMap chunk = chunk m := by simp
    rw [hone, hchunk m (by omega), displ_succ, List.range_add, List.map_append,
      List.map_map]
    rfl

/-- The distributed pass computes exactly the single-worker reference output:
for the pointwise filters with any worker count, and for the stencil filters
whenever every band is nonempty (worker count ≤ height). -/
theorem mpiRun_eq_ref (img : Image) (f : FilterKind) (size : ℕ) (hs : 1 ≤ size)
    (hlen : img.data.length = img.height * img.width * img.channels)
    (hsten : f = .blur ∨ f = .edge → size ≤ img.height) :
    mpiRun img f size = some (refData img f) := by
  have htot : displ img.height size img.width img.channels size =
      img.height * img.width * img.channels := by
    rw [displ_total img.height size img.width img.channels hs]
    ring
  cases f with
  | grayscale =>
    have hchunk : ∀ r, r < size →
        grayscale_filter_mpi (bandOf img size r) (localHeight img.height size r)
          img.width img.channels =
        (List.range (sendcount img.height size img.width img.channels r)).map
          fun t => refByte img .grayscale
            (displ img.height size img.width img.channels r + t) := by
      intro r hr
      apply ext_byteAt
      · rw [List.length_map, List.length_range]
        simp only [grayscale_filter_mpi, List.length_ofFn]
        unfold sendcount
        ring
      · intro t ht
        have ht2 : t < sendcount img.height size img.width img.channels r := by
          simp only [grayscale_filter_mpi, List.length_ofFn] at ht
          unfold sendcount
          calc t < localHeight img.height size r * img.width * img.channels := ht
            _ = localHeight img.height size r * (img.width * img.channels) := by ring
        rw [grayscale_band_byte_eq img size r hs hr hlen ht2, byteAt_range_map _ ht2]
    have h := flatMap_chunks img.height size img.width img.channels _ _ hchunk size le_rfl
    simp only [mpiRun]
    congr 1
    rw [h, htot]
    rfl
  | brighten =>
    have hchunk : ∀ r, r < size →
        brightness_filter_mpi (bandOf img size r) 50 =
        (List.range (sendcount img.height size img.width img.channels r)).map
          fun t => refByte img .brighten
            (displ img.height size img.width img.channels r + t) := by
      intro r hr
      apply ext_byteAt
      · rw [List.length_map, List.length_range]
        simp only [brightness_filter_mpi, List.length_map]
        rw [bandOf_length img size r hs hr hlen]
      · intro t ht
        have ht2 : t < sendcount img.height size img.width img.channels r := by
          simp only [brightness_filter_mpi, List.length_map] at ht
          rwa [bandOf_length img size r hs hr hlen] at ht
        rw [brighten_band_byte_eq img size r hs hr hlen ht2, byteAt_range_map _ ht2]
    have h := flatMap_chunks img.height size img.width img.channels _ _ hchunk size le_rfl
    simp only [mpiRun]
    congr 1
    rw [h, htot]
    rfl
  | blur =>
    have hsh := hsten (Or.inl rfl)
    have hchunk : ∀ r, r < size →
        gaussian_blur_filter_mpi (bandOf img size r)
          (haloTopOf ((List.range size).flatMap fun q =>
            sendChunk (bandOf img size q) (localHeight img.height size q)
              (img.width * img.channels) q size) (img.width * img.channels) r)
          (haloBottomOf ((List.range size).flatMap fun q =>
            sendChunk (bandOf img size q) (localHeight img.height size q)
              (img.width * img.channels) q size) (img.width * img.channels) r size)
          (localHeight img.height size r) img.width img.channels r size =
        (List.range (sendcount img.height size img.width img.channels r)).map
          fun t => refByte img .blur
            (displ img.height size img.width img.channels r + t) := by
      intro r hr
      apply ext_byteAt
      · rw [List.length_map, List.length_range]
        simp only [gaussian_blur_filter_mpi, List.length_ofFn]
        unfold sendcount
        ring
      · intro t ht
        have ht2 : t < sendcount img.height size img.width img.channels r := by
          simp only [gaussian_blur_filter_mpi, List.length_ofFn] at ht
          unfold sendcount
          calc t < localHeight img.height size r * img.width * img.channels := ht
            _ = localHeight img.height size r * (img.width * img.channels) := by ring
        rw [blur_band_byte_eq img size r hs hr hsh hlen ht2, byteAt_range_map _ ht2]
    have h := flatMap_chunks img.height size img.width img.channels _ _ hchunk size le_rfl
    simp only [mpiRun]
    rw [allSends_eq img size hs hsh hlen]
    dsimp only
    congr 1
    rw [h, htot]
    rfl
  | edge =>
    have hsh := hsten (Or.inr rfl)
    have hchunk : ∀ r, r < size →
        sobel_edge_filter_mpi (bandOf img size r)
          (haloTopOf ((List.range size).flatMap fun q =>
            sendChunk (bandOf img size q) (localHeight img.height size q)
              (img.width * img.channels) q size) (img.width * img.channels) r)
          (haloBottomOf ((List.range size).flatMap fun q =>
            sendChunk (bandOf img size q) (localHeight img.height size q)
              (img.width * img.channels) q size) (img.width * img.channels) r size)
          (localHeight img.height size r) img.width img.channels r size =
        (List.range (sendcount img.height size img.width img.channels r)).map
          fun t => refByte img .edge
            (displ img.height size img.width img.channels r + t) := by
      intro r hr
      apply ext_byteAt
      · rw [List.length_map, List.length_range]
        simp only [sobel_edge_filter_mpi, List.length_ofFn]
        unfold sendcount
        ring
      · intro t ht
        have ht2 : t < sendcount img.height size img.width img.channels r := by
          simp only [sobel_edge_filter_mpi, List.length_ofFn] at ht
          unfold sendcount
          calc t < localHeight img.height size r * img.width * img.channels := ht
            _ = localHeight img.height size r * (img.width * img.channels) := by ring
        rw [edge_band_byte_eq img size r hs hr hsh hlen ht2, byteAt_range_map _ ht2]
    have h := flatMap_chunks img.height size img.width img.channels _ _ hchunk size le_rfl
    simp only [mpiRun]
    rw [allSends_eq img size hs hsh hlen]
    dsimp only
    congr 1
    rw [h, htot]
    rfl

/-! ## Partition invariance (claim C1) and boundary policy (claim C2) -/

/-- C1 counterexample: with a 1×2 image and 3 workers (more workers than
rows), the blur pass posts an out-of-bounds halo send and the run aborts,
while the single-worker run completes — the output is not byte-identical for
every worker_count N > 1. -/
theorem partition_invariance_counterexample :
    mpiRun ⟨1, 2, 1, [5, 9]⟩ .blur 3 = none ∧
      mpiRun ⟨1, 2, 1, [5, 9]⟩ .blur 1 = some [5, 9] :=
  ⟨by decide, by decide⟩

/-- C1 (amended): for every input image and every filter, the gathered
full-image output with `worker_count = N` is byte-identical to the
single-worker output — for every `N ≥ 1` when the filter is pointwise
(grayscale/brighten), and for every `N ≤ height` when the filter is a stencil
filter (blur/edge), the restriction forced by the zero-row-band
out-of-bounds send. -/
theorem partition_invariance (img : Image) (f : FilterKind) (N : ℕ)
    (hN : 1 ≤ N)
    (hlen : img.data.length = img.height * img.width * img.channels)
    (hh : 1 ≤ img.height)
    (hsten : f = .blur ∨ f = .edge → N ≤ img.height) :
    mpiRun img f N = mpiRun img f 1 := by
  rw [mpiRun_eq_ref img f N hN hlen hsten,
    mpiRun_eq_ref img f 1 le_rfl hlen fun _ => hh]

theorem partition_invariance_witness :
    mpiRun ⟨3, 3, 1, [9, 2, 7, 4, 1, 8, 6, 5, 3]⟩ .blur 2 =
      mpiRun ⟨3, 3, 1, [9, 2, 7, 4, 1, 8, 6, 5, 3]⟩ .blur 1 :=
  partition_invariance ⟨3, 3, 1, [9, 2, 7, 4, 1, 8, 6, 5, 3]⟩ .blur 2 (by decide)
    (by decide) (by decide) fun _ => by decide

/-- C2 counterexample: the shared-memory edge filter writes nothing to
boundary pixels, leaving them at the output buffer's calloc value 0, not at
the input value: on a 3×3 all-100 image the output's first byte is 0 while
the input's is 100. -/
theorem boundary_passthrough_counterexample :
    byteAt (sobel_edge_filter ⟨3, 3, 1, List.replicate 9 100⟩).data 0 = 0 ∧
      byteAt (⟨3, 3, 1, List.replicate 9 100⟩ : Image).data 0 = 100 :=
  ⟨by decide, by decide⟩

/-- C2 (amended): after blur the global first/last rows and first/last
columns are byte-identical to the input in both strategies, and after the
distributed edge filter as well; the shared-memory edge filter instead leaves
every boundary pixel at the freshly allocated output's value 0. -/
theorem boundary_passthrough :
    (∀ (input : Image) (i j c : ℕ), i < input.height → j < input.width →
      c < input.channels →
      (i = 0 ∨ i = input.height - 1 ∨ j = 0 ∨ j = input.width - 1) →
      byteAt (gaussian_blur_filter input).data
          (pxIdx input.width input.channels i j c) =
        byteAt input.data (pxIdx input.width input.channels i j c)) ∧
    (∀ (input : Image) (i j c : ℕ), i < input.height → j < input.width →
      c < input.channels →
      (i = 0 ∨ i = input.height - 1 ∨ j = 0 ∨ j = input.width - 1) →
      byteAt (sobel_edge_filter input).data
        (pxIdx input.width input.channels i j c) = 0) ∧
    (∀ (img : Image) (N : ℕ) (f : FilterKind), (f = .blur ∨ f = .edge) →
      1 ≤ N → N ≤ img.height →
      img.data.length = img.height * img.width * img.channels →
      ∀ out, mpiRun img f N = some out →
      ∀ i j c, i < img.height → j < img.width → c < img.channels →
        (i = 0 ∨ i = img.height - 1 ∨ j = 0 ∨ j = img.width - 1) →
        byteAt out (pxIdx img.width img.channels i j c) =
          byteAt img.data (pxIdx img.width img.channels i j c)) := by
  refine ⟨?_, ?_, ?_⟩
  · intro input i j c hi hj hc hb
    rw [gaussian_blur_filter_byte input hi hj hc, if_pos hb]
  · intro input i j c hi hj hc hb
    rw [sobel_edge_filter_byte input hi hj hc, if_pos hb]
  · intro img N f hf hN hNh hlen out hout i j c hi hj hc hb
    rw [mpiRun_eq_ref img f N hN hlen fun _ => hNh] at hout
    have hout2 : out = refData img f := (Option.some.injEq _ _).mp hout.symm
    subst hout2
    have hK : pxIdx img.width img.channels i j c <
        img.height * img.width * img.channels := pxIdx_lt hi hj hc
    rcases hf with hf | hf <;> subst hf
    · rw [refData, byteAt_range_map _ hK, refByte_blur_px img hi hj hc]
      by_cases hib : i = 0 ∨ i = img.height - 1
      · rw [if_pos hib]
      · rw [if_neg hib]
        have hj0 : j = 0 ∨ j = img.width - 1 := by tauto
        rcases hj0 with h | h
        · rw [if_neg (by omega)]
        · rw [if_neg (by omega)]
    · rw [refData, byteAt_range_map _ hK, refByte_edge_px img hi hj hc]
      by_cases hib : i = 0 ∨ i = img.height - 1
      · rw [if_pos hib]
      · rw [if_neg hib]
        have hj0 : j = 0 ∨ j = img.width - 1 := by tauto
        rcases hj0 with h | h
        · rw [if_neg (by omega)]
        · rw [if_neg (by omega)]

theorem boundary_passthrough_witness :
    byteAt (gaussian_blur_filter ⟨3, 3, 1, List.replicate 9 7⟩).data
        (pxIdx 3 1 0 1 0) =
      byteAt (⟨3, 3, 1, List.replicate 9 7⟩ : Image).data (pxIdx 3 1 0 1 0) :=
  boundary_passthrough.1 ⟨3, 3, 1, List.replicate 9 7⟩ 0 1 0 (by decide) (by decide)
    (by decide) (Or.inl rfl)

/-! ## In-place write traces (claim C9)

The C filters store into a buffer while reading pixel values from a buffer
they never store into (`input->data` in the OMP strategy; the `temp` copy and
the halo rows in the MPI stencil filters).  We model the literal sequence of
stores and prove it computes the same buffer as the per-index functional
description used above. -/

/-- Apply a list of `(index, value)` stores left to right. -/
def applyWrites (writes : List (ℕ × ℕ)) (buf : List ℕ) : List ℕ :=
  writes.foldl (fun b p => b.set p.1 p.2) buf

/-- The stores of a doubly nested pixel loop: for each row `i`, column `j`
and channel `c` of the loop ranges, store `val i j c` at the pixel offset. -/
def pxWrites (width channels : ℕ) (rows : List ℕ) (cols : ℕ → List ℕ)
    (chans : ℕ → List ℕ) (val : ℕ → ℕ → ℕ → ℕ) : List (ℕ × ℕ) :=
  rows.flatMap fun i => (cols i).flatMap fun j => (chans j).map fun c =>
    (pxIdx width channels i j c, val i j c)

theorem applyWrites_length (ws : List (ℕ × ℕ)) (buf : List ℕ) :
    (applyWrites ws buf).length = buf.length := by
  induction ws generalizing buf with
  | nil => rfl
  | cons p t ih =>
    show (applyWrites t (buf.set p.1 p.2)).length = buf.length
    rw [ih, List.length_set]

theorem byteAt_set_ne {buf : List ℕ} {m k v : ℕ} (h : m ≠ k) :
    byteAt (buf.set m v) k = byteAt buf k := by
  simp [byteAt, List.getD, List.getElem?_set_ne h]

theorem byteAt_set_self {buf : List ℕ} {k v : ℕ} (hk : k < buf.length) :
    byteAt (buf.set k v) k = v := by
  rw [byteAt, List.getD_eq_getElem _ _ (by simpa using hk)]
  simp

theorem applyWrites_not_mem (ws : List (ℕ × ℕ)) (buf : List ℕ) {k : ℕ}
    (h : k ∉ ws.map Prod.fst) :
    byteAt (applyWrites ws buf) k = byteAt buf k := by
  induction ws generalizing buf with
  | nil => rfl
  | cons p t ih =>
    rw [List.map_cons, List.mem_cons] at h
    push_neg at h
    show byteAt (applyWrites t (buf.set p.1 p.2)) k = byteAt buf k
    rw [ih _ h.2, byteAt_set_ne fun he => h.1 he.symm]

theorem applyWrites_mem (ws : List (ℕ × ℕ)) (buf : List ℕ) {k v : ℕ}
    (hnd : (ws.map Prod.fst).Nodup) (hm : (k, v) ∈ ws) (hk : k < buf.length) :
    byteAt (applyWrites ws buf) k = v := by
  induction ws generalizing buf with
  | nil => cases hm
  | cons p t ih =>
    rw [List.map_cons] at hnd
    have hnd2 := List.nodup_cons.mp hnd
    rcases List.mem_cons.mp hm with he | hmem
    · show byteAt (applyWrites t (buf.set p.1 p.2)) k = v
      have hp1 : p.1 = k := by rw [← he]
      have hnotin : k ∉ t.map Prod.fst := hp1 ▸ hnd2.1
      rw [applyWrites_not_mem t _ hnotin, hp1, byteAt_set_self hk, ← he]
    · show byteAt (applyWrites t (buf.set p.1 p.2)) k = v
      exact ih _ hnd2.2 hmem (by rw [List.length_set]; exact hk)

theorem pxIdx_inj {width channels i1 j1 c1 i2 j2 c2 : ℕ}
    (hj1 : j1 < width) (hc1 : c1 < channels) (hj2 : j2 < width) (hc2 : c2 < channels)
    (h : pxIdx width channels i1 j1 c1 = pxIdx width channels i2 j2 c2) :
    i1 = i2 ∧ j1 = j2 ∧ c1 = c2 := by
  refine ⟨?_, ?_, ?_⟩
  · have hr := congrArg (rowOf width channels) h
    rwa [rowOf_pxIdx _ hj1 hc1, rowOf_pxIdx _ hj2 hc2] at hr
  · have hr := congrArg (colOf width channels) h
    rwa [colOf_pxIdx _ hj1 hc1, colOf_pxIdx _ hj2 hc2] at hr
  · have hr := congrArg (chOf channels) h
    rwa [chOf_pxIdx _ _ _ hc1, chOf_pxIdx _ _ _ hc2] at hr

theorem mem_pxWrites {width channels : ℕ} {rows : List ℕ} {cols : ℕ → List ℕ}
    {chans : ℕ → List ℕ} {val : ℕ → ℕ → ℕ → ℕ} {p : ℕ × ℕ}
    (hp : p ∈ pxWrites width channels rows cols chans val) :
    ∃ i j c, i ∈ rows ∧ j ∈ cols i ∧ c ∈ chans j ∧
      p = (pxIdx width channels i j c, val i j c) := by
  unfold pxWrites at hp
  obtain ⟨i, hi, hp⟩ := List.mem_flatMap.mp hp
  obtain ⟨j, hj, hp⟩ := List.mem_flatMap.mp hp
  obtain ⟨c, hc, hp⟩ := List.mem_map.mp hp
  exact ⟨i, j, c, hi, hj, hc, hp.symm⟩

theorem pxWrites_mem {width channels : ℕ} {rows : List ℕ} {cols : ℕ → List ℕ}
    {chans : ℕ → List ℕ} {val : ℕ → ℕ → ℕ → ℕ} {i j c : ℕ}
    (hi : i ∈ rows) (hj : j ∈ cols i) (hc : c ∈ chans j) :
    (pxIdx width channels i j c, val i j c) ∈
      pxWrites width channels rows cols chans val := by
  unfold pxWrites
  exact List.mem_flatMap.mpr ⟨i, hi, List.mem_flatMap.mpr ⟨j, hj,
    List.mem_map.mpr ⟨c, hc, rfl⟩⟩⟩

/-- The stored-to offsets of a pixel loop are pairwise distinct when the loop
ranges are duplicate-free and in bounds. -/
theorem pxWrites_positions_nodup {width channels : ℕ} {rows : List ℕ}
    {cols : ℕ → List ℕ} {chans : ℕ → List ℕ} {val : ℕ → ℕ → ℕ → ℕ}
    (hrows : rows.Nodup) (hcols : ∀ i, (cols i).Nodup)
    (hchans : ∀ j, (chans j).Nodup)
    (hjb : ∀ i, ∀ j ∈ cols i, j < width)
    (hcb : ∀ j, ∀ c ∈ chans j, c < channels) :
    ((pxWrites width channels rows cols chans val).map Prod.fst).Nodup := by
  unfold pxWrites
  rw [List.map_flatMap, List.nodup_flatMap]
  constructor
  · intro i hi
    rw [List.map_flatMap, List.nodup_flatMap]
    constructor
    · intro j hj
      rw [List.map_map]
      apply List.Nodup.map ?_ (hchans j)
      intro c1 c2 hc
      simp only [Function.comp] at hc
      unfold pxIdx at hc
      omega
    · apply List.Pairwise.imp_of_mem ?_ (hcols i)
      intro j1 j2 hj1 hj2 hne
      intro a ha1 ha2
      simp only [List.map_map] at ha1 ha2
      obtain ⟨c1, hc1, he1⟩ := List.mem_map.mp ha1
      obtain ⟨c2, hc2, he2⟩ := List.mem_map.mp ha2
      simp only [Function.comp] at he1 he2
      have hpx : pxIdx width channels i j1 c1 = pxIdx width channels i j2 c2 :=
        he1.trans he2.symm
      exact hne (pxIdx_inj (hjb i j1 hj1) (hcb j1 c1 hc1) (hjb i j2 hj2)
        (hcb j2 c2 hc2) hpx).2.1
  · apply List.Pairwise.imp_of_mem ?_ hrows
    intro i1 i2 hi1 hi2 hne
    intro a ha1 ha2
    simp only [List.map_flatMap, List.map_map] at ha1 ha2
    obtain ⟨j1, hj1, ha1⟩ := List.mem_flatMap.mp ha1
    obtain ⟨j2, hj2, ha2⟩ := List.mem_flatMap.mp ha2
    obtain ⟨c1, hc1, he1⟩ := List.mem_map.mp ha1
    obtain ⟨c2, hc2, he2⟩ := List.mem_map.mp ha2
    simp only [Function.comp] at he1 he2
    have hpx : pxIdx width channels i1 j1 c1 = pxIdx width channels i2 j2 c2 :=
      he1.trans he2.symm
    exact hne (pxIdx_inj (hjb i1 j1 hj1) (hcb j1 c1 hc1) (hjb i2 j2 hj2)
      (hcb j2 c2 hc2) hpx).1

/-- The in-place stores of `gaussian_blur_filter_mpi` in program order
(row loop with the boundary `continue`, then `for j = 1; j < width-1`, then
the channel loop); every stored value is computed from the `temp` copy (the
unmodified band) and the halo rows, exactly as the C reads are. -/
def blurWrites (band haloTop haloBottom : List ℕ)
    (lh width channels rank size : ℕ) : List (ℕ × ℕ) :=
  pxWrites width channels (List.range lh)
    (fun i => if (rank = 0 ∧ i = 0) ∨ (rank = size - 1 ∧ i = lh - 1) then []
              else List.range' 1 (width - 1 - 1))
    (fun _ => List.range channels)
    (fun i j c => blurSumMpi band haloTop haloBottom lh width channels i j c / 16)

/-- The sequential in-place MPI blur: perform the C stores in order on
`local_data`, which initially holds the band. -/
def gaussian_blur_filter_mpi_seq (band haloTop haloBottom : List ℕ)
    (lh width channels rank size : ℕ) : List ℕ :=
  applyWrites (blurWrites band haloTop haloBottom lh width channels rank size) band

/-- The OMP grayscale stores: channels 0..2 of each pixel receive the gray
value and channel 3 (when present) a copy of the input alpha byte; every read
is from `input->data` and every store goes to the output buffer. -/
def grayWrites (input : Image) : List (ℕ × ℕ) :=
  pxWrites input.width input.channels (List.range input.height)
    (fun _ => List.range input.width)
    (fun _ => List.range (min input.channels 4))
    (fun i j c =>
      if c < 3 then
        grayByte (byteAt input.data (pxIdx input.width input.channels i j 0))
          (if 1 < input.channels then
            byteAt input.data (pxIdx input.width input.channels i j 1)
           else byteAt input.data (pxIdx input.width input.channels i j 0))
          (if 2 < input.channels then
            byteAt input.data (pxIdx input.width input.channels i j 2)
           else byteAt input.data (pxIdx input.width input.channels i j 0))
      else byteAt input.data (pxIdx input.width input.channels i j 3))

theorem blurWrites_positions_nodup (band haloTop haloBottom : List ℕ)
    (lh width channels rank size : ℕ) :
    ((blurWrites band haloTop haloBottom lh width channels rank size).map
      Prod.fst).Nodup := by
  apply pxWrites_positions_nodup (List.nodup_range lh) ?_ (fun j => List.nodup_range _)
    ?_ (fun j c hc => List.mem_range.mp hc)
  · intro i
    split
    · exact List.nodup_nil
    · exact List.nodup_range' _ _
  · intro i j hj
    split at hj
    · cases hj
    · have := List.mem_range'_1.mp hj
      omega

theorem grayWrites_positions_nodup (input : Image) :
    ((grayWrites input).map Prod.fst).Nodup := by
  apply pxWrites_positions_nodup (List.nodup_range _) (fun i => List.nodup_range _)
    (fun j => List.nodup_range _) (fun i j hj => List.mem_range.mp hj)
    (fun j c hc => by have := List.mem_range.mp hc; omega)

theorem blurWrites_not_mem (band haloTop haloBottom : List ℕ)
    (lh width channels rank size : ℕ) {i j c : ℕ}
    (hj : j < width) (hc : c < channels)
    (hnw : ((rank = 0 ∧ i = 0) ∨ (rank = size - 1 ∧ i = lh - 1)) ∨
      ¬(1 ≤ j ∧ j + 1 < width)) :
    pxIdx width channels i j c ∉
      ((blurWrites band haloTop haloBottom lh width channels rank size).map
        Prod.fst) := by
  intro hmem
  obtain ⟨p, hp, hfst⟩ := List.mem_map.mp hmem
  obtain ⟨i2, j2, c2, hi2, hj2, hc2, hpe⟩ := mem_pxWrites hp
  by_cases hsk2 : (rank = 0 ∧ i2 = 0) ∨ (rank = size - 1 ∧ i2 = lh - 1)
  · rw [if_pos hsk2] at hj2
    cases hj2
  · rw [if_neg hsk2] at hj2
    have hj2r := List.mem_range'_1.mp hj2
    have hc2r := List.mem_range.mp hc2
    subst hpe
    simp only at hfst
    obtain ⟨hieq, hjeq, hceq⟩ := pxIdx_inj (by omega) hc2r hj hc hfst
    rcases hnw with hsk | hnj
    · exact hsk2 (by rw [hieq]; exact hsk)
    · exact hnj ⟨by omega, by omega⟩

theorem blurWrites_mem (band haloTop haloBottom : List ℕ)
    (lh width channels rank size : ℕ) {i j c : ℕ}
    (hi : i < lh) (hc : c < channels)
    (hns : ¬((rank = 0 ∧ i = 0) ∨ (rank = size - 1 ∧ i = lh - 1)))
    (hj1 : 1 ≤ j) (hj2 : j + 1 < width) :
    (pxIdx width channels i j c,
      blurSumMpi band haloTop haloBottom lh width channels i j c / 16) ∈
      blurWrites band haloTop haloBottom lh width channels rank size := by
  unfold blurWrites
  refine pxWrites_mem (List.mem_range.mpr hi) ?_ (List.mem_range.mpr hc)
  show j ∈ if (rank = 0 ∧ i = 0) ∨ (rank = size - 1 ∧ i = lh - 1) then ([] : List ℕ)
    else List.range' 1 (width - 1 - 1)
  rw [if_neg hns]
  exact List.mem_range'_1.mpr ⟨hj1, by omega⟩

/-- The literal sequence of in-place stores of the MPI blur computes the same
buffer as the per-index functional description: every read goes to the
immutable `temp` copy and the halo buffers, so the in-place stores never feed
back into later reads. -/
theorem blur_seq_eq_fun (band haloTop haloBottom : List ℕ)
    (lh width channels rank size : ℕ)
    (hlen : band.length = lh * width * channels) :
    gaussian_blur_filter_mpi_seq band haloTop haloBottom lh width channels rank size =
      gaussian_blur_filter_mpi band haloTop haloBottom lh width channels rank size := by
  have hnd := blurWrites_positions_nodup band haloTop haloBottom lh width
    channels rank size
  apply ext_byteAt
  · unfold gaussian_blur_filter_mpi_seq
    rw [applyWrites_length, hlen]
    simp [gaussian_blur_filter_mpi]
  · intro k hk0
    unfold gaussian_blur_filter_mpi_seq at hk0 ⊢
    rw [applyWrites_length] at hk0
    have hk2 : k < lh * width * channels := by rw [← hlen]; exact hk0
    have hch : 0 < channels := by
      rcases Nat.eq_zero_or_pos channels with h0 | h1
      · subst h0; simp at hk2
      · exact h1
    have hw : 0 < width := by
      rcases Nat.eq_zero_or_pos width with h0 | h1
      · subst h0; simp at hk2
      · exact h1
    have hi : rowOf width channels k < lh := rowOf_lt hk2
    have hj : colOf width channels k < width := colOf_lt hch hw
    have hc : chOf channels k < channels := chOf_lt k hch
    have hdec := pxIdx_decomp width k hch
    set i := rowOf width channels k with hidef
    set j := colOf width channels k with hjdef
    set c := chOf channels k with hcdef
    rw [← hdec, gaussian_blur_filter_mpi_byte _ _ _ _ _ _ _ _ hi hj hc]
    by_cases hskip : (rank = 0 ∧ i = 0) ∨ (rank = size - 1 ∧ i = lh - 1)
    · rw [if_pos hskip]
      exact applyWrites_not_mem _ _ (blurWrites_not_mem band haloTop haloBottom
        lh width channels rank size hj hc (Or.inl hskip))
    · rw [if_neg hskip]
      by_cases hjint : 1 ≤ j ∧ j + 1 < width
      · rw [if_pos hjint]
        exact applyWrites_mem _ _ hnd (blurWrites_mem band haloTop haloBottom
          lh width channels rank size hi hc hskip hjint.1 hjint.2)
          (by rw [hdec]; exact hk0)
      · rw [if_neg hjint]
        exact applyWrites_not_mem _ _ (blurWrites_not_mem band haloTop haloBottom
          lh width channels rank size hj hc (Or.inr hjint))

theorem grayWrites_not_mem (input : Image) {i j c : ℕ}
    (hj : j < input.width) (hc : c < input.channels)
    (hge : min input.channels 4 ≤ c) :
    pxIdx input.width input.channels i j c ∉ ((grayWrites input).map Prod.fst) := by
  intro hmem
  obtain ⟨p, hp, hfst⟩ := List.mem_map.mp hmem
  obtain ⟨i2, j2, c2, hi2, hj2, hc2, hpe⟩ := mem_pxWrites hp
  have hj2r := List.mem_range.mp hj2
  have hc2r := List.mem_range.mp hc2
  subst hpe
  simp only at hfst
  obtain ⟨hieq, hjeq, hceq⟩ := pxIdx_inj hj2r (by omega) hj hc hfst
  omega

theorem grayWrites_mem (input : Image) {i j c : ℕ}
    (hi : i < input.height) (hj : j < input.width)
    (hc : c < min input.channels 4) :
    (pxIdx input.width input.channels i j c,
      if c < 3 then
        grayByte (byteAt input.data (pxIdx input.width input.channels i j 0))
          (if 1 < input.channels then
            byteAt input.data (pxIdx input.width input.channels i j 1)
           else byteAt input.data (pxIdx input.width input.channels i j 0))
          (if 2 < input.channels then
            byteAt input.data (pxIdx input.width input.channels i j 2)
           else byteAt input.data (pxIdx input.width input.channels i j 0))
      else byteAt input.data (pxIdx input.width input.channels i j 3)) ∈
      grayWrites input := by
  unfold grayWrites
  refine pxWrites_mem (List.mem_range.mpr hi) ?_ (List.mem_range.mpr hc)
  show j ∈ List.range input.width
  exact List.mem_range.mpr hj

/-- The OMP grayscale store sequence, started on the calloc-zero output
buffer, produces exactly the functional output buffer. -/
theorem grayWrites_eq_fun (input : Image) :
    applyWrites (grayWrites input)
        (List.replicate (input.height * input.width * input.channels) 0) =
      (grayscale_filter input).data := by
  have hnd := grayWrites_positions_nodup input
  apply ext_byteAt
  · rw [applyWrites_length, List.length_replicate]
    simp [grayscale_filter]
  · intro k hk0
    rw [applyWrites_length, List.length_replicate] at hk0
    have hk2 : k < input.height * input.width * input.channels := hk0
    have hch : 0 < input.channels := by
      rcases Nat.eq_zero_or_pos input.channels with h0 | h1
      · rw [h0] at hk2; simp at hk2
      · exact h1
    have hw : 0 < input.width := by
      rcases Nat.eq_zero_or_pos input.width with h0 | h1
      · rw [h0] at hk2; simp at hk2
      · exact h1
    have hi : rowOf input.width input.channels k < input.height := rowOf_lt hk2
    have hj : colOf input.width input.channels k < input.width := colOf_lt hch hw
    have hc : chOf input.channels k < input.channels := chOf_lt k hch
    have hdec := pxIdx_decomp input.width k hch
    set i := rowOf input.width input.channels k with hidef
    set j := colOf input.width input.channels k with hjdef
    set c := chOf input.channels k with hcdef
    rw [← hdec, grayscale_filter_byte input hi hj hc]
    by_cases hc4 : c < min input.channels 4
    · rw [applyWrites_mem _ _ hnd (grayWrites_mem input hi hj hc4)
        (by rw [List.length_replicate]; exact pxIdx_lt hi hj hc)]
      by_cases h3 : c < 3
      · rw [if_pos h3, if_pos h3]
      · have hc3 : c = 3 := by omega
        rw [if_neg h3, if_neg h3, if_pos hc3, hc3]
    · rw [applyWrites_not_mem _ _ (grayWrites_not_mem input hj hc (by omega)),
        byteAt_replicate (pxIdx_lt hi hj hc), if_neg (by omega), if_neg (by omega)]

/-- Stores of consecutive phases apply in order. -/
theorem applyWrites_append (a b : List (ℕ × ℕ)) (buf : List ℕ) :
    applyWrites (a ++ b) buf = applyWrites b (applyWrites a buf) :=
  List.foldl_append _ _ _ _

/-- If at least one store targets offset `k` and every store targeting `k`
carries the same value `v`, the final byte at `k` is `v` (duplicate stores
are allowed). -/
theorem applyWrites_all_eq (ws : List (ℕ × ℕ)) (buf : List ℕ) {k v : ℕ}
    (hall : ∀ p ∈ ws, p.1 = k → p.2 = v) (hex : k ∈ ws.map Prod.fst)
    (hk : k < buf.length) :
    byteAt (applyWrites ws buf) k = v := by
  induction ws generalizing buf with
  | nil => simp at hex
  | cons p t ih =>
    show byteAt (applyWrites t (buf.set p.1 p.2)) k = v
    by_cases hkt : k ∈ t.map Prod.fst
    · exact ih _ (fun q hq => hall q (List.mem_cons_of_mem _ hq)) hkt
        (by rw [List.length_set]; exact hk)
    · have hp1 : p.1 = k := by
        rw [List.map_cons, List.mem_cons] at hex
        rcases hex with h | h
        · exact h.symm
        · exact absurd h hkt
      rw [applyWrites_not_mem t _ hkt, hp1, byteAt_set_self hk]
      exact hall p (List.mem_cons_self _ _) hp1

/-- Relocate a store trace by `d` addresses: the C stores go through
`output->data`, i.e. they land at offset `d + k` of the combined memory
formed by the input allocation (`d` bytes) followed by the output
allocation. -/
def offsetWrites (d : ℕ) (ws : List (ℕ × ℕ)) : List (ℕ × ℕ) :=
  ws.map fun p => (d + p.1, p.2)

/-- Every relocated store lands past the first segment of an appended
buffer: after the whole pass the first segment (the input allocation) is
byte-identical to what it was, and the second segment holds exactly the
result of the un-relocated store sequence. -/
theorem applyWrites_offset (ws : List (ℕ × ℕ)) (buf1 buf2 : List ℕ) :
    applyWrites (offsetWrites buf1.length ws) (buf1 ++ buf2) =
      buf1 ++ applyWrites ws buf2 := by
  induction ws generalizing buf2 with
  | nil => rfl
  | cons p t ih =>
    show applyWrites (offsetWrites buf1.length t)
        ((buf1 ++ buf2).set (buf1.length + p.1) p.2) =
      buf1 ++ applyWrites t (buf2.set p.1 p.2)
    rw [List.set_append_right _ _ (Nat.le_add_right _ _), Nat.add_sub_cancel_left]
    exact ih (buf2.set p.1 p.2)

/-- Run an OMP filter's store trace on the combined memory: the input
allocation (`input->data`) followed by the freshly calloc-zeroed output
allocation, with every store relocated past the input segment exactly as the
C stores through `output->data` are. -/
def ompPass (input : Image) (ws : List (ℕ × ℕ)) : List ℕ :=
  applyWrites (offsetWrites input.data.length ws)
    (input.data ++ List.replicate (input.height * input.width * input.channels) 0)

/-- The stores of the OMP `brightness_filter` (lines 237-257) in program
order: every channel of every pixel receives its clamped input byte; every
read targets `input->data`. -/
def brightenWritesOmp (input : Image) : List (ℕ × ℕ) :=
  pxWrites input.width input.channels (List.range input.height)
    (fun _ => List.range input.width) (fun _ => List.range input.channels)
    (fun i j c => brightenByte 50
      (byteAt input.data (pxIdx input.width input.channels i j c)))

theorem brightenWritesOmp_positions_nodup (input : Image) :
    ((brightenWritesOmp input).map Prod.fst).Nodup := by
  apply pxWrites_positions_nodup (List.nodup_range _) (fun _ => List.nodup_range _)
    (fun _ => List.nodup_range _) (fun _ j hj => List.mem_range.mp hj)
    (fun _ c hc => List.mem_range.mp hc)

/-- The OMP brightness store sequence on the calloc-zero output buffer
produces exactly the functional output buffer. -/
theorem brightenWritesOmp_eq_fun (input : Image) :
    applyWrites (brightenWritesOmp input)
        (List.replicate (input.height * input.width * input.channels) 0) =
      (brightness_filter input 50).data := by
  apply ext_byteAt
  · rw [applyWrites_length, List.length_replicate]
    simp [brightness_filter]
  · intro k hk0
    rw [applyWrites_length, List.length_replicate] at hk0
    have hch : 0 < input.channels := by
      rcases Nat.eq_zero_or_pos input.channels with h0 | h1
      · rw [h0] at hk0; simp at hk0
      · exact h1
    have hw : 0 < input.width := by
      rcases Nat.eq_zero_or_pos input.width with h0 | h1
      · rw [h0] at hk0; simp at hk0
      · exact h1
    have hi : rowOf input.width input.channels k < input.height := rowOf_lt hk0
    have hj : colOf input.width input.channels k < input.width := colOf_lt hch hw
    have hc : chOf input.channels k < input.channels := chOf_lt k hch
    have hdec := pxIdx_decomp input.width k hch
    set i := rowOf input.width input.channels k
    set j := colOf input.width input.channels k
    set c := chOf input.channels k
    have hmem : (pxIdx input.width input.channels i j c, brightenByte 50
        (byteAt input.data (pxIdx input.width input.channels i j c))) ∈
        brightenWritesOmp input := by
      unfold brightenWritesOmp
      refine pxWrites_mem (List.mem_range.mpr hi) ?_ (List.mem_range.mpr hc)
      show j ∈ List.range input.width
      exact List.mem_range.mpr hj
    rw [← hdec, applyWrites_mem _ _ (brightenWritesOmp_positions_nodup input) hmem
      (by rw [List.length_replicate]; exact pxIdx_lt hi hj hc)]
    simp only [brightness_filter]
    rw [byteAt_ofFn _ (pxIdx_lt hi hj hc)]

/-- The stores of an OMP interior-stencil loop nest: rows `1 ≤ i < height-1`,
columns `1 ≤ j < width-1`, all channels. -/
def interiorWrites (width height channels : ℕ) (val : ℕ → ℕ → ℕ → ℕ) :
    List (ℕ × ℕ) :=
  pxWrites width channels (List.range' 1 (height - 1 - 1))
    (fun _ => List.range' 1 (width - 1 - 1)) (fun _ => List.range channels) val

theorem interiorWrites_positions_nodup (width height channels : ℕ)
    (val : ℕ → ℕ → ℕ → ℕ) :
    ((interiorWrites width height channels val).map Prod.fst).Nodup := by
  apply pxWrites_positions_nodup (List.nodup_range' _ _)
    (fun _ => List.nodup_range' _ _) (fun _ => List.nodup_range _)
    (fun _ j hj => by have := List.mem_range'_1.mp hj; omega)
    (fun _ c hc => List.mem_range.mp hc)

theorem interiorWrites_not_mem (width height channels : ℕ)
    (val : ℕ → ℕ → ℕ → ℕ) {i j c : ℕ} (hj : j < width) (hc : c < channels)
    (hbor : i = 0 ∨ i = height - 1 ∨ j = 0 ∨ j = width - 1) :
    pxIdx width channels i j c ∉
      ((interiorWrites width height channels val).map Prod.fst) := by
  intro hmem
  obtain ⟨p, hp, hfst⟩ := List.mem_map.mp hmem
  obtain ⟨i2, j2, c2, hi2, hj2, hc2, hpe⟩ := mem_pxWrites hp
  have hi2r := List.mem_range'_1.mp hi2
  have hj2r := List.mem_range'_1.mp hj2
  have hc2r := List.mem_range.mp hc2
  subst hpe
  simp only at hfst
  obtain ⟨hieq, hjeq, hceq⟩ := pxIdx_inj (by omega) hc2r hj hc hfst
  omega

theorem interiorWrites_mem (width height channels : ℕ) (val : ℕ → ℕ → ℕ → ℕ)
    {i j c : ℕ} (hi : i < height) (hj : j < width) (hc : c < channels)
    (hni : ¬(i = 0 ∨ i = height - 1 ∨ j = 0 ∨ j = width - 1)) :
    (pxIdx width channels i j c, val i j c) ∈
      interiorWrites width height channels val := by
  push_neg at hni
  unfold interiorWrites
  refine pxWrites_mem (List.mem_range'_1.mpr ⟨by omega, by omega⟩) ?_
    (List.mem_range.mpr hc)
  show j ∈ List.range' 1 (width - 1 - 1)
  exact List.mem_range'_1.mpr ⟨by omega, by omega⟩

/-- The stores of the OMP `sobel_edge_filter` (lines 196-235) in program
order: interior pixels only, the channel-0 magnitude stored to every
channel; every read targets `input->data`.  Border pixels are never stored
to. -/
def edgeWritesOmp (input : Image) : List (ℕ × ℕ) :=
  interiorWrites input.width input.height input.channels
    (fun i j _ => edgeValueAt input.data input.width input.channels i j)

/-- The OMP Sobel store sequence on the calloc-zero output buffer produces
exactly the functional output buffer (borders keep the calloc value 0). -/
theorem edgeWritesOmp_eq_fun (input : Image) :
    applyWrites (edgeWritesOmp input)
        (List.replicate (input.height * input.width * input.channels) 0) =
      (sobel_edge_filter input).data := by
  unfold edgeWritesOmp
  apply ext_byteAt
  · rw [applyWrites_length, List.length_replicate]
    simp [sobel_edge_filter]
  · intro k hk0
    rw [applyWrites_length, List.length_replicate] at hk0
    have hch : 0 < input.channels := by
      rcases Nat.eq_zero_or_pos input.channels with h0 | h1
      · rw [h0] at hk0; simp at hk0
      · exact h1
    have hw : 0 < input.width := by
      rcases Nat.eq_zero_or_pos input.width with h0 | h1
      · rw [h0] at hk0; simp at hk0
      · exact h1
    have hi : rowOf input.width input.channels k < input.height := rowOf_lt hk0
    have hj : colOf input.width input.channels k < input.width := colOf_lt hch hw
    have hc : chOf input.channels k < input.channels := chOf_lt k hch
    have hdec := pxIdx_decomp input.width k hch
    set i := rowOf input.width input.channels k
    set j := colOf input.width input.channels k
    set c := chOf input.channels k
    rw [← hdec, sobel_edge_filter_byte input hi hj hc]
    by_cases hbor : i = 0 ∨ i = input.height - 1 ∨ j = 0 ∨ j = input.width - 1
    · rw [if_pos hbor,
        applyWrites_not_mem _ _ (interiorWrites_not_mem input.width input.height
          input.channels _ hj hc hbor)]
      exact byteAt_replicate (pxIdx_lt hi hj hc)
    · rw [if_neg hbor]
      exact applyWrites_mem _ _ (interiorWrites_positions_nodup _ _ _ _)
        (interiorWrites_mem input.width input.height input.channels _ hi hj hc hbor)
        (by rw [List.length_replicate]; exact pxIdx_lt hi hj hc)

/-- The border-copy stores of the OMP `gaussian_blur_filter` (lines 177-193)
in program order: the full first and last row; for every middle row the left
and the right border pixel, channel by channel (when `width = 1` the left
and right offsets coincide and are stored twice).  Every stored value is the
input byte at the stored-to offset. -/
def blurBorderWrites (input : Image) : List (ℕ × ℕ) :=
  (List.range input.height).flatMap fun i =>
    if i = 0 ∨ i = input.height - 1 then
      (List.range input.width).flatMap fun j =>
        (List.range input.channels).map fun c =>
          (pxIdx input.width input.channels i j c,
            byteAt input.data (pxIdx input.width input.channels i j c))
    else
      (List.range input.channels).flatMap fun c =>
        [(pxIdx input.width input.channels i 0 c,
            byteAt input.data (pxIdx input.width input.channels i 0 c)),
          (pxIdx input.width input.channels i (input.width - 1) c,
            byteAt input.data
              (pxIdx input.width input.channels i (input.width - 1) c))]

/-- The stores of the OMP `gaussian_blur_filter` (lines 142-194) in program
order: the interior stencil loop, then the border-copy loop.  Every read
targets `input->data`. -/
def blurWritesOmp (input : Image) : List (ℕ × ℕ) :=
  interiorWrites input.width input.height input.channels
    (fun i j c => blurSumAt input.data input.width input.channels i j c / 16) ++
    blurBorderWrites input

/-- Every border-copy store writes the input byte at its own offset. -/
theorem blurBorderWrites_val (input : Image) {p : ℕ × ℕ}
    (hp : p ∈ blurBorderWrites input) : p.2 = byteAt input.data p.1 := by
  unfold blurBorderWrites at hp
  obtain ⟨i, hi, hp⟩ := List.mem_flatMap.mp hp
  by_cases hib : i = 0 ∨ i = input.height - 1
  · rw [if_pos hib] at hp
    obtain ⟨j, hj, hp⟩ := List.mem_flatMap.mp hp
    obtain ⟨c, hc, hpe⟩ := List.mem_map.mp hp
    rw [← hpe]
  · rw [if_neg hib] at hp
    obtain ⟨c, hc, hp⟩ := List.mem_flatMap.mp hp
    simp only [List.mem_cons, List.not_mem_nil, or_false] at hp
    rcases hp with hpe | hpe
    · rw [hpe]
    · rw [hpe]

/-- Every boundary offset of the image receives a border-copy store. -/
theorem blurBorderWrites_mem (input : Image) {i j c : ℕ}
    (hi : i < input.height) (hj : j < input.width) (hc : c < input.channels)
    (hbor : i = 0 ∨ i = input.height - 1 ∨ j = 0 ∨ j = input.width - 1) :
    pxIdx input.width input.channels i j c ∈
      ((blurBorderWrites input).map Prod.fst) := by
  refine List.mem_map.mpr ⟨(pxIdx input.width input.channels i j c,
    byteAt input.data (pxIdx input.width input.channels i j c)), ?_, rfl⟩
  unfold blurBorderWrites
  refine List.mem_flatMap.mpr ⟨i, List.mem_range.mpr hi, ?_⟩
  by_cases hib : i = 0 ∨ i = input.height - 1
  · rw [if_pos hib]
    exact List.mem_flatMap.mpr ⟨j, List.mem_range.mpr hj,
      List.mem_map.mpr ⟨c, List.mem_range.mpr hc, rfl⟩⟩
  · rw [if_neg hib]
    refine List.mem_flatMap.mpr ⟨c, List.mem_range.mpr hc, ?_⟩
    have hjb : j = 0 ∨ j = input.width - 1 := by
      rcases hbor with h | h | h | h
      · exact absurd (Or.inl h) hib
      · exact absurd (Or.inr h) hib
      · exact Or.inl h
      · exact Or.inr h
    rcases hjb with h0 | h1
    · rw [h0]
      exact List.mem_cons_self _ _
    · rw [h1]
      exact List.mem_cons.mpr (Or.inr (List.mem_cons_self _ _))

/-- Interior offsets receive no border-copy store. -/
theorem blurBorderWrites_not_mem (input : Image) {i j c : ℕ}
    (hj : j < input.width) (hc : c < input.channels)
    (hni : ¬(i = 0 ∨ i = input.height - 1 ∨ j = 0 ∨ j = input.width - 1)) :
    pxIdx input.width input.channels i j c ∉
      ((blurBorderWrites input).map Prod.fst) := by
  intro hmem
  push_neg at hni
  obtain ⟨p, hp, hfst⟩ := List.mem_map.mp hmem
  unfold blurBorderWrites at hp
  obtain ⟨i2, hi2, hp⟩ := List.mem_flatMap.mp hp
  by_cases hib : i2 = 0 ∨ i2 = input.height - 1
  · rw [if_pos hib] at hp
    obtain ⟨j2, hj2, hp⟩ := List.mem_flatMap.mp hp
    obtain ⟨c2, hc2, hpe⟩ := List.mem_map.mp hp
    rw [← hpe] at hfst
    simp only at hfst
    obtain ⟨hieq, hjeq, hceq⟩ := pxIdx_inj (List.mem_range.mp hj2)
      (List.mem_range.mp hc2) hj hc hfst
    omega
  · rw [if_neg hib] at hp
    obtain ⟨c2, hc2, hp⟩ := List.mem_flatMap.mp hp
    simp only [List.mem_cons, List.not_mem_nil, or_false] at hp
    have hc2r := List.mem_range.mp hc2
    rcases hp with hpe | hpe
    · rw [hpe] at hfst
      simp only at hfst
      obtain ⟨hieq, hjeq, hceq⟩ := pxIdx_inj (by omega) hc2r hj hc hfst
      omega
    · rw [hpe] at hfst
      simp only at hfst
      obtain ⟨hieq, hjeq, hceq⟩ := pxIdx_inj (by omega) hc2r hj hc hfst
      omega

/-- The OMP blur store sequence (stencil pass, then border copy) on the
calloc-zero output buffer produces exactly the functional output buffer. -/
theorem blurWritesOmp_eq_fun (input : Image) :
    applyWrites (blurWritesOmp input)
        (List.replicate (input.height * input.width * input.channels) 0) =
      (gaussian_blur_filter input).data := by
  unfold blurWritesOmp
  apply ext_byteAt
  · rw [applyWrites_length, List.length_replicate]
    simp [gaussian_blur_filter]
  · intro k hk0
    rw [applyWrites_length, List.length_replicate] at hk0
    have hch : 0 < input.channels := by
      rcases Nat.eq_zero_or_pos input.channels with h0 | h1
      · rw [h0] at hk0; simp at hk0
      · exact h1
    have hw : 0 < input.width := by
      rcases Nat.eq_zero_or_pos input.width with h0 | h1
      · rw [h0] at hk0; simp at hk0
      · exact h1
    have hi : rowOf input.width input.channels k < input.height := rowOf_lt hk0
    have hj : colOf input.width input.channels k < input.width := colOf_lt hch hw
    have hc : chOf input.channels k < input.channels := chOf_lt k hch
    have hdec := pxIdx_decomp input.width k hch
    set i := rowOf input.width input.channels k
    set j := colOf input.width input.channels k
    set c := chOf input.channels k
    rw [← hdec, gaussian_blur_filter_byte input hi hj hc, applyWrites_append]
    by_cases hbor : i = 0 ∨ i = input.height - 1 ∨ j = 0 ∨ j = input.width - 1
    · rw [if_pos hbor]
      refine applyWrites_all_eq _ _ ?_ (blurBorderWrites_mem input hi hj hc hbor) ?_
      · intro p hp hpk
        rw [blurBorderWrites_val input hp, hpk]
      · rw [applyWrites_length, List.length_replicate]
        exact pxIdx_lt hi hj hc
    · rw [if_neg hbor,
        applyWrites_not_mem _ _ (blurBorderWrites_not_mem input hj hc hbor)]
      exact applyWrites_mem _ _ (interiorWrites_positions_nodup _ _ _ _)
        (interiorWrites_mem input.width input.height input.channels _ hi hj hc hbor)
        (by rw [List.length_replicate]; exact pxIdx_lt hi hj hc)

/-- The in-place stores of `sobel_edge_filter_mpi` (lines 344-408) in
program order: same row/column policy as the MPI blur, the channel-0
magnitude stored to every channel; every read targets the `temp` copy of
the band and the halo rows, exactly as the C reads do. -/
def edgeWritesMpi (band haloTop haloBottom : List ℕ)
    (lh width channels rank size : ℕ) : List (ℕ × ℕ) :=
  pxWrites width channels (List.range lh)
    (fun i => if (rank = 0 ∧ i = 0) ∨ (rank = size - 1 ∧ i = lh - 1) then []
              else List.range' 1 (width - 1 - 1))
    (fun _ => List.range channels)
    (fun i j _ => edgeValueMpi band haloTop haloBottom lh width channels i j)

/-- The sequential in-place MPI edge filter: perform the C stores in order
on `local_data`, which initially holds the band. -/
def sobel_edge_filter_mpi_seq (band haloTop haloBottom : List ℕ)
    (lh width channels rank size : ℕ) : List ℕ :=
  applyWrites (edgeWritesMpi band haloTop haloBottom lh width channels rank size) band

theorem edgeWritesMpi_positions_nodup (band haloTop haloBottom : List ℕ)
    (lh width channels rank size : ℕ) :
    ((edgeWritesMpi band haloTop haloBottom lh width channels rank size).map
      Prod.fst).Nodup := by
  apply pxWrites_positions_nodup (List.nodup_range lh) ?_
    (fun j => List.nodup_range _) ?_ (fun j c hc => List.mem_range.mp hc)
  · intro i
    split
    · exact List.nodup_nil
    · exact List.nodup_range' _ _
  · intro i j hj
    split at hj
    · cases hj
    · have := List.mem_range'_1.mp hj
      omega

theorem edgeWritesMpi_not_mem (band haloTop haloBottom : List ℕ)
    (lh width channels rank size : ℕ) {i j c : ℕ}
    (hj : j < width) (hc : c < channels)
    (hnw : ((rank = 0 ∧ i = 0) ∨ (rank = size - 1 ∧ i = lh - 1)) ∨
      ¬(1 ≤ j ∧ j + 1 < width)) :
    pxIdx width channels i j c ∉
      ((edgeWritesMpi band haloTop haloBottom lh width channels rank size).map
        Prod.fst) := by
  intro hmem
  obtain ⟨p, hp, hfst⟩ := List.mem_map.mp hmem
  obtain ⟨i2, j2, c2, hi2, hj2, hc2, hpe⟩ := mem_pxWrites hp
  by_cases hsk2 : (rank = 0 ∧ i2 = 0) ∨ (rank = size - 1 ∧ i2 = lh - 1)
  · rw [if_pos hsk2] at hj2
    cases hj2
  · rw [if_neg hsk2] at hj2
    have hj2r := List.mem_range'_1.mp hj2
    have hc2r := List.mem_range.mp hc2
    subst hpe
    simp only at hfst
    obtain ⟨hieq, hjeq, hceq⟩ := pxIdx_inj (by omega) hc2r hj hc hfst
    rcases hnw with hsk | hnj
    · exact hsk2 (by rw [hieq]; exact hsk)
    · exact hnj ⟨by omega, by omega⟩

theorem edgeWritesMpi_mem (band haloTop haloBottom : List ℕ)
    (lh width channels rank size : ℕ) {i j c : ℕ}
    (hi : i < lh) (hc : c < channels)
    (hns : ¬((rank = 0 ∧ i = 0) ∨ (rank = size - 1 ∧ i = lh - 1)))
    (hj1 : 1 ≤ j) (hj2 : j + 1 < width) :
    (pxIdx width channels i j c,
      edgeValueMpi band haloTop haloBottom lh width channels i j) ∈
      edgeWritesMpi band haloTop haloBottom lh width channels rank size := by
  unfold edgeWritesMpi
  refine pxWrites_mem (List.mem_range.mpr hi) ?_ (List.mem_range.mpr hc)
  show j ∈ if (rank = 0 ∧ i = 0) ∨ (rank = size - 1 ∧ i = lh - 1) then ([] : List ℕ)
    else List.range' 1 (width - 1 - 1)
  rw [if_neg hns]
  exact List.mem_range'_1.mpr ⟨hj1, by omega⟩

/-- The literal sequence of in-place stores of the MPI edge filter computes
the same buffer as the per-index functional description: every read goes to
the immutable `temp` copy and the halo buffers, so the in-place stores never
feed back into later reads. -/
theorem edge_mpi_seq_eq_fun (band haloTop haloBottom : List ℕ)
    (lh width channels rank size : ℕ)
    (hlen : band.length = lh * width * channels) :
    sobel_edge_filter_mpi_seq band haloTop haloBottom lh width channels rank size =
      sobel_edge_filter_mpi band haloTop haloBottom lh width channels rank size := by
  have hnd := edgeWritesMpi_positions_nodup band haloTop haloBottom lh width
    channels rank size
  apply ext_byteAt
  · unfold sobel_edge_filter_mpi_seq
    rw [applyWrites_length, hlen]
    simp [sobel_edge_filter_mpi]
  · intro k hk0
    unfold sobel_edge_filter_mpi_seq at hk0 ⊢
    rw [applyWrites_length] at hk0
    have hk2 : k < lh * width * channels := by rw [← hlen]; exact hk0
    have hch : 0 < channels := by
      rcases Nat.eq_zero_or_pos channels with h0 | h1
      · subst h0; simp at hk2
      · exact h1
    have hw : 0 < width := by
      rcases Nat.eq_zero_or_pos width with h0 | h1
      · subst h0; simp at hk2
      · exact h1
    have hi : rowOf width channels k < lh := rowOf_lt hk2
    have hj : colOf width channels k < width := colOf_lt hch hw
    have hc : chOf channels k < channels := chOf_lt k hch
    have hdec := pxIdx_decomp width k hch
    set i := rowOf width channels k
    set j := colOf width channels k
    set c := chOf channels k
    rw [← hdec, sobel_edge_filter_mpi_byte _ _ _ _ _ _ _ _ hi hj hc]
    by_cases hskip : (rank = 0 ∧ i = 0) ∨ (rank = size - 1 ∧ i = lh - 1)
    · rw [if_pos hskip]
      exact applyWrites_not_mem _ _ (edgeWritesMpi_not_mem band haloTop haloBottom
        lh width channels rank size hj hc (Or.inl hskip))
    · rw [if_neg hskip]
      by_cases hjint : 1 ≤ j ∧ j + 1 < width
      · rw [if_pos hjint]
        exact applyWrites_mem _ _ hnd (edgeWritesMpi_mem band haloTop haloBottom
          lh width channels rank size hi hc hskip hjint.1 hjint.2)
          (by rw [hdec]; exact hk0)
      · rw [if_neg hjint]
        exact applyWrites_not_mem _ _ (edgeWritesMpi_not_mem band haloTop haloBottom
          lh width channels rank size hj hc (Or.inr hjint))

/-- The in-place stores of `grayscale_filter_mpi` (lines 266-283) in program
order: channels 0, 1, 2 (those that exist) of each pixel receive the gray
value.  The C kernel reads the pixel's own channels 0..2 of `local_data`
immediately before storing to them, and no other iteration stores to those
offsets, so every read sees the original band byte. -/
def grayWritesMpi (band : List ℕ) (lh width channels : ℕ) : List (ℕ × ℕ) :=
  pxWrites width channels (List.range lh) (fun _ => List.range width)
    (fun _ => List.range (min channels 3))
    (fun i j _ =>
      grayByte (byteAt band (pxIdx width channels i j 0))
        (if 1 < channels then byteAt band (pxIdx width channels i j 1)
         else byteAt band (pxIdx width channels i j 0))
        (if 2 < channels then byteAt band (pxIdx width channels i j 2)
         else byteAt band (pxIdx width channels i j 0)))

/-- The sequential in-place MPI grayscale: perform the C stores in order on
`local_data`, which initially holds the band. -/
def grayscale_filter_mpi_seq (band : List ℕ) (lh width channels : ℕ) : List ℕ :=
  applyWrites (grayWritesMpi band lh width channels) band

theorem grayWritesMpi_positions_nodup (band : List ℕ) (lh width channels : ℕ) :
    ((grayWritesMpi band lh width channels).map Prod.fst).Nodup := by
  apply pxWrites_positions_nodup (List.nodup_range _) (fun _ => List.nodup_range _)
    (fun _ => List.nodup_range _) (fun _ j hj => List.mem_range.mp hj)
    (fun _ c hc => by have := List.mem_range.mp hc; omega)

theorem grayWritesMpi_not_mem (band : List ℕ) (lh width channels : ℕ)
    {i j c : ℕ} (hj : j < width) (hc : c < channels) (hge : 3 ≤ c) :
    pxIdx width channels i j c ∉ ((grayWritesMpi band lh width channels).map
      Prod.fst) := by
  intro hmem
  obtain ⟨p, hp, hfst⟩ := List.mem_map.mp hmem
  obtain ⟨i2, j2, c2, hi2, hj2, hc2, hpe⟩ := mem_pxWrites hp
  have hj2r := List.mem_range.mp hj2
  have hc2r := List.mem_range.mp hc2
  subst hpe
  simp only at hfst
  obtain ⟨hieq, hjeq, hceq⟩ := pxIdx_inj hj2r (by omega) hj hc hfst
  omega

theorem grayWritesMpi_mem (band : List ℕ) (lh width channels : ℕ) {i j c : ℕ}
    (hi : i < lh) (hj : j < width) (hc : c < channels) (hlt : c < 3) :
    (pxIdx width channels i j c,
      grayByte (byteAt band (pxIdx width channels i j 0))
        (if 1 < channels then byteAt band (pxIdx width channels i j 1)
         else byteAt band (pxIdx width channels i j 0))
        (if 2 < channels then byteAt band (pxIdx width channels i j 2)
         else byteAt band (pxIdx width channels i j 0))) ∈
      grayWritesMpi band lh width channels := by
  unfold grayWritesMpi
  refine pxWrites_mem (List.mem_range.mpr hi) ?_ (List.mem_range.mpr (by omega))
  show j ∈ List.range width
  exact List.mem_range.mpr hj

/-- The literal sequence of in-place stores of the MPI grayscale computes
the same buffer as the per-index functional description: each pixel's bytes
are read before its own stores and no other pixel's stores touch them. -/
theorem gray_mpi_seq_eq_fun (band : List ℕ) (lh width channels : ℕ)
    (hlen : band.length = lh * width * channels) :
    grayscale_filter_mpi_seq band lh width channels =
      grayscale_filter_mpi band lh width channels := by
  have hnd := grayWritesMpi_positions_nodup band lh width channels
  apply ext_byteAt
  · unfold grayscale_filter_mpi_seq
    rw [applyWrites_length, hlen]
    simp [grayscale_filter_mpi]
  · intro k hk0
    unfold grayscale_filter_mpi_seq at hk0 ⊢
    rw [applyWrites_length] at hk0
    have hk2 : k < lh * width * channels := by rw [← hlen]; exact hk0
    have hch : 0 < channels := by
      rcases Nat.eq_zero_or_pos channels with h0 | h1
      · subst h0; simp at hk2
      · exact h1
    have hw : 0 < width := by
      rcases Nat.eq_zero_or_pos width with h0 | h1
      · subst h0; simp at hk2
      · exact h1
    have hi : rowOf width channels k < lh := rowOf_lt hk2
    have hj : colOf width channels k < width := colOf_lt hch hw
    have hc : chOf channels k < channels := chOf_lt k hch
    have hdec := pxIdx_decomp width k hch
    set i := rowOf width channels k
    set j := colOf width channels k
    set c := chOf channels k
    rw [← hdec, grayscale_filter_mpi_byte band hi hj hc]
    by_cases h3 : c < 3
    · rw [if_pos h3]
      exact applyWrites_mem _ _ hnd (grayWritesMpi_mem band lh width channels
        hi hj hc h3) (by rw [hdec]; exact hk0)
    · rw [if_neg h3]
      exact applyWrites_not_mem _ _ (grayWritesMpi_not_mem band lh width channels
        hj hc (by omega))

/-- The in-place stores of `brightness_filter_mpi` (lines 410-420) in
program order: one pass over all `local_height*width*channels` byte offsets;
each byte is read immediately before its own store and never touched
again. -/
def brightenWritesMpi (band : List ℕ) (lh width channels : ℕ) : List (ℕ × ℕ) :=
  (List.range (lh * width * channels)).map fun t =>
    (t, brightenByte 50 (byteAt band t))

/-- The sequential in-place MPI brighten: perform the C stores in order on
`local_data`, which initially holds the band. -/
def brightness_filter_mpi_seq (band : List ℕ) (lh width channels : ℕ) : List ℕ :=
  applyWrites (brightenWritesMpi band lh width channels) band

theorem brightenWritesMpi_positions_nodup (band : List ℕ)
    (lh width channels : ℕ) :
    ((brightenWritesMpi band lh width channels).map Prod.fst).Nodup := by
  unfold brightenWritesMpi
  rw [List.map_map]
  apply List.Nodup.map ?_ (List.nodup_range _)
  intro t1 t2 h
  exact h

/-- The literal sequence of in-place stores of the MPI brighten computes the
same buffer as mapping the clamp over the band: each byte is read strictly
before its own store. -/
theorem brighten_mpi_seq_eq_fun (band : List ℕ) (lh width channels : ℕ)
    (hlen : band.length = lh * width * channels) :
    brightness_filter_mpi_seq band lh width channels =
      brightness_filter_mpi band 50 := by
  have hnd := brightenWritesMpi_positions_nodup band lh width channels
  apply ext_byteAt
  · unfold brightness_filter_mpi_seq
    rw [applyWrites_length]
    simp [brightness_filter_mpi]
  · intro k hk0
    unfold brightness_filter_mpi_seq at hk0 ⊢
    rw [applyWrites_length] at hk0
    have hmem : (k, brightenByte 50 (byteAt band k)) ∈
        brightenWritesMpi band lh width channels := by
      unfold brightenWritesMpi
      exact List.mem_map.mpr ⟨k, List.mem_range.mpr (by omega), rfl⟩
    rw [applyWrites_mem _ _ hnd hmem hk0]
    unfold brightness_filter_mpi
    rw [byteAt_map _ _ hk0]

/-- C9: every filter reads pixel values only from bytes that no store of the
pass has touched before the read, and writes its results to a logically
separate output location; in the shared-memory strategy the input buffer is
byte-identical before and after each whole pass.  Shared-memory side: each
of the four passes, executed as its literal store trace on the combined
memory (the input allocation followed by the calloc-zero output allocation,
with every store going through `output->data`), yields the untouched input
segment followed by exactly the functional output.  Distributed side: each
of the four in-place kernels, executed as its literal store trace on
`local_data`, equals the pure per-index description of the original band —
the stencil kernels read only the `temp` copy and the halo rows, and the
pointwise kernels read each byte strictly before its own store — so no store
ever feeds back into a read. -/
theorem filters_read_only_input :
    (∀ input : Image,
      ompPass input (grayWrites input) =
        input.data ++ (grayscale_filter input).data ∧
      ompPass input (blurWritesOmp input) =
        input.data ++ (gaussian_blur_filter input).data ∧
      ompPass input (edgeWritesOmp input) =
        input.data ++ (sobel_edge_filter input).data ∧
      ompPass input (brightenWritesOmp input) =
        input.data ++ (brightness_filter input 50).data) ∧
    (∀ (band haloTop haloBottom : List ℕ) (lh width channels rank size : ℕ),
      band.length = lh * width * channels →
      grayscale_filter_mpi_seq band lh width channels =
        grayscale_filter_mpi band lh width channels ∧
      gaussian_blur_filter_mpi_seq band haloTop haloBottom lh width channels
          rank size =
        gaussian_blur_filter_mpi band haloTop haloBottom lh width channels
          rank size ∧
      sobel_edge_filter_mpi_seq band haloTop haloBottom lh width channels
          rank size =
        sobel_edge_filter_mpi band haloTop haloBottom lh width channels
          rank size ∧
      brightness_filter_mpi_seq band lh width channels =
        brightness_filter_mpi band 50) := by
  constructor
  · intro input
    refine ⟨?_, ?_, ?_, ?_⟩
    · unfold ompPass
      rw [applyWrites_offset, grayWrites_eq_fun]
    · unfold ompPass
      rw [applyWrites_offset, blurWritesOmp_eq_fun]
    · unfold ompPass
      rw [applyWrites_offset, edgeWritesOmp_eq_fun]
    · unfold ompPass
      rw [applyWrites_offset, brightenWritesOmp_eq_fun]
  · intro band haloTop haloBottom lh width channels rank size hlen
    exact ⟨gray_mpi_seq_eq_fun band lh width channels hlen,
      blur_seq_eq_fun band haloTop haloBottom lh width channels rank size hlen,
      edge_mpi_seq_eq_fun band haloTop haloBottom lh width channels rank size hlen,
      brighten_mpi_seq_eq_fun band lh width channels hlen⟩

theorem filters_read_only_input_witness :
    ompPass ⟨2, 2, 1, [1, 2, 3, 4]⟩ (grayWrites ⟨2, 2, 1, [1, 2, 3, 4]⟩) =
      (⟨2, 2, 1, [1, 2, 3, 4]⟩ : Image).data ++
        (grayscale_filter ⟨2, 2, 1, [1, 2, 3, 4]⟩).data ∧
    gaussian_blur_filter_mpi_seq [1, 2, 3, 4, 5, 6] [0, 0] [9, 9] 3 2 1 0 1 =
      gaussian_blur_filter_mpi [1, 2, 3, 4, 5, 6] [0, 0] [9, 9] 3 2 1 0 1 :=
  ⟨(filters_read_only_input.1 ⟨2, 2, 1, [1, 2, 3, 4]⟩).1,
    (filters_read_only_input.2 [1, 2, 3, 4, 5, 6] [0, 0] [9, 9] 3 2 1 0 1
      (by decide)).2.1⟩
